import Mathlib

/-!
Verification of the BanterChess embed script (src/js/embed.js).

The development shallowly embeds the board-reconciliation algorithm
(`syncBoard`), the FEN placement decoder, the click-selection state machine
(`handleSquareClick` / `clearSelection`), the shared-space-state handlers
(`setupBanterStateListeners`), and the square-to-3D-position mapping
(`getSquarePos` / `getPiecePos`).

Modelling conventions:
* A JavaScript object used as a string-keyed map is an association list kept
  in insertion order; property assignment is `upsert` (replace in place when
  the key exists, append otherwise), matching object key-ordering semantics
  for the non-numeric keys used here.
* A rendered GameObject is a `Piece`: an identity (`id`; fresh ids come from
  a counter threaded through reconciliation, standing for JavaScript object
  identity of newly constructed GameObjects) plus its `pieceType` tag.
* `createPiece` returns null in the source when the descriptor has no entry
  in `PIECE_MODELS`, or when a host scene-graph call throws; the host part is
  abstracted as the boolean oracle `hostOk`.
* 3D coordinates use exact rationals.
-/

/-- A rendered piece GameObject: object identity plus its `pieceType` tag
(set by `createPiece` as `piece.pieceType = char`). -/
structure Piece where
  id : Nat
  pieceType : Char
deriving DecidableEq, Repr

/-- `state.pieces` / `nextPiecesMap`: square identifier → rendered object. -/
abbrev PieceMap := List (String × Piece)

/-- Association-list lookup, first match (JavaScript property read). -/
def alookup {κ α : Type} [DecidableEq κ] : List (κ × α) → κ → Option α
  | [], _ => none
  | e :: rest, k => if e.1 = k then some e.2 else alookup rest k

/-- JavaScript object property assignment: replace in place when the key is
present, append at the end otherwise. -/
def upsert {κ α : Type} [DecidableEq κ] : List (κ × α) → κ → α → List (κ × α)
  | [], k, v => [(k, v)]
  | e :: rest, k, v => if e.1 = k then (k, v) :: rest else e :: upsert rest k v

/-- The key list of an association list. -/
def keysOf {κ α : Type} (l : List (κ × α)) : List κ := l.map Prod.fst

-- ### Basic association-list lemmas

theorem keysOf_nil {κ α : Type} : keysOf ([] : List (κ × α)) = [] := rfl

theorem keysOf_cons {κ α : Type} (e : κ × α) (l : List (κ × α)) :
    keysOf (e :: l) = e.1 :: keysOf l := rfl

theorem keysOf_append {κ α : Type} (l l' : List (κ × α)) :
    keysOf (l ++ l') = keysOf l ++ keysOf l' := by
  simp [keysOf]

theorem mem_keysOf_iff {κ α : Type} (l : List (κ × α)) (k : κ) :
    k ∈ keysOf l ↔ ∃ v, (k, v) ∈ l := by
  constructor
  · intro h
    rcases List.mem_map.mp h with ⟨p, hp, hpe⟩
    exact ⟨p.2, by cases p; cases hpe; simpa using hp⟩
  · rintro ⟨v, hv⟩
    exact List.mem_map.mpr ⟨(k, v), hv, rfl⟩

theorem alookup_upsert_self {κ α : Type} [DecidableEq κ] (l : List (κ × α)) (k : κ) (v : α) :
    alookup (upsert l k v) k = some v := by
  induction l with
  | nil => simp [upsert, alookup]
  | cons e rest ih =>
    by_cases h : e.1 = k
    · simp [upsert, h, alookup]
    · simp [upsert, h, alookup, ih]

theorem alookup_upsert_ne {κ α : Type} [DecidableEq κ] (l : List (κ × α)) (k k' : κ) (v : α)
    (hne : k' ≠ k) : alookup (upsert l k v) k' = alookup l k' := by
  induction l with
  | nil =>
    have : ¬ (k = k') := fun h => hne h.symm
    simp [upsert, alookup, this]
  | cons e rest ih =>
    by_cases h : e.1 = k
    · subst h
      have h1 : ¬ (e.1 = k') := fun h => hne h.symm
      simp [upsert, alookup, h1]
    · simp only [upsert, if_neg h]
      by_cases h2 : e.1 = k'
      · simp [alookup, h2]
      · simp [alookup, h2, ih]

theorem alookup_eq_none_iff {κ α : Type} [DecidableEq κ] (l : List (κ × α)) (k : κ) :
    alookup l k = none ↔ k ∉ keysOf l := by
  induction l with
  | nil => simp [alookup, keysOf]
  | cons e rest ih =>
    by_cases h : e.1 = k
    · simp [alookup, h, keysOf_cons]
    · simp only [alookup, if_neg h, keysOf_cons, List.mem_cons]
      rw [ih]
      constructor
      · intro hnot hor
        rcases hor with h1 | h1
        · exact h h1.symm
        · exact hnot h1
      · intro hnot h1
        exact hnot (Or.inr h1)

theorem alookup_isSome_iff_mem {κ α : Type} [DecidableEq κ] (l : List (κ × α)) (k : κ) :
    (alookup l k).isSome ↔ k ∈ keysOf l := by
  rcases h : alookup l k with _ | v
  · simp only [Option.isSome_none, Bool.false_eq_true, false_iff]
    exact (alookup_eq_none_iff l k).mp h
  · simp only [Option.isSome_some, true_iff]
    by_contra hnot
    have : alookup l k = none := (alookup_eq_none_iff l k).mpr hnot
    rw [h] at this
    exact Option.noConfusion this

theorem alookup_mem {κ α : Type} [DecidableEq κ] {l : List (κ × α)} {k : κ} {v : α}
    (h : alookup l k = some v) : (k, v) ∈ l := by
  induction l with
  | nil => simp [alookup] at h
  | cons e rest ih =>
    by_cases he : e.1 = k
    · simp only [alookup, if_pos he, Option.some.injEq] at h
      exact List.mem_cons.mpr (Or.inl (by cases e; cases he; cases h; rfl))
    · simp only [alookup, if_neg he] at h
      exact List.mem_cons_of_mem _ (ih h)

theorem mem_alookup {κ α : Type} [DecidableEq κ] {l : List (κ × α)} {k : κ} {v : α}
    (hnd : (keysOf l).Nodup) (h : (k, v) ∈ l) : alookup l k = some v := by
  induction l with
  | nil => simp at h
  | cons e rest ih =>
    rw [keysOf_cons, List.nodup_cons] at hnd
    rcases List.mem_cons.mp h with h1 | h1
    · subst h1; simp [alookup]
    · have hk : e.1 ≠ k := by
        intro hek
        exact hnd.1 (hek ▸ (mem_keysOf_iff rest k).mpr ⟨v, h1⟩)
      simp only [alookup, if_neg hk]
      exact ih hnd.2 h1

theorem mem_keysOf_upsert {κ α : Type} [DecidableEq κ] (l : List (κ × α)) (k k' : κ) (v : α) :
    k' ∈ keysOf (upsert l k v) ↔ k' ∈ keysOf l ∨ k' = k := by
  induction l with
  | nil => simp [upsert, keysOf]
  | cons e rest ih =>
    by_cases h : e.1 = k
    · subst h
      have hu : upsert (e :: rest) e.1 v = (e.1, v) :: rest := by simp [upsert]
      rw [hu, keysOf_cons, keysOf_cons]
      simp only [List.mem_cons]
      tauto
    · simp only [upsert, if_neg h, keysOf_cons, List.mem_cons]
      rw [ih]
      tauto

theorem keysOf_upsert_nodup {κ α : Type} [DecidableEq κ] (l : List (κ × α)) (k : κ) (v : α)
    (hnd : (keysOf l).Nodup) : (keysOf (upsert l k v)).Nodup := by
  induction l with
  | nil => simp [upsert, keysOf]
  | cons e rest ih =>
    rw [keysOf_cons, List.nodup_cons] at hnd
    by_cases h : e.1 = k
    · subst h
      simp only [upsert, if_pos rfl, keysOf_cons]
      exact List.nodup_cons.mpr hnd
    · simp only [upsert, if_neg h, keysOf_cons]
      refine List.nodup_cons.mpr ⟨?_, ih hnd.2⟩
      intro hmem
      rcases (mem_keysOf_upsert rest k e.1 v).mp hmem with h1 | h1
      · exact hnd.1 h1
      · exact h h1

theorem upsert_of_not_mem {κ α : Type} [DecidableEq κ] (l : List (κ × α)) (k : κ) (v : α)
    (h : k ∉ keysOf l) : upsert l k v = l ++ [(k, v)] := by
  induction l with
  | nil => simp [upsert]
  | cons e rest ih =>
    rw [keysOf_cons, List.mem_cons] at h
    have h1 : e.1 ≠ k := fun hc => h (Or.inl hc.symm)
    simp only [upsert, if_neg h1, List.cons_append, List.cons.injEq, true_and]
    exact ih (fun hc => h (Or.inr hc))

-- ### FEN placement decoding (syncBoard step 1, embed.js lines 412-428)

/-- The file letters, `['a', ..., 'h']` (embed.js line 414). -/
def lettersList : List Char := ['a', 'b', 'c', 'd', 'e', 'f', 'g', 'h']

/-- `letters[fileIndex]` interpolated into a template literal: an
out-of-range index yields the string "undefined" in JavaScript. -/
def fileName (i : Nat) : String :=
  match lettersList.get? i with
  | some c => String.mk [c]
  | none => "undefined"

/-- The square identifier template literal: file letter then rank. -/
def squareIdOf (i : Nat) (rank : Int) : String := fileName i ++ toString rank

/-- `parseInt(char)` is truthy exactly for the digits 1-9 ('0' parses to the
falsy 0, letters parse to NaN). -/
def isFenDigit (c : Char) : Bool := decide ('1' ≤ c ∧ c ≤ '9')

/-- The inner loop of syncBoard step 1 over one placement row: digits advance
`fileIndex` by their value, any other character is recorded as a piece
descriptor on the current square. -/
def decodeRow (rank : Int) : List Char → Nat → List (String × Char)
  | [], _ => []
  | c :: rest, fileIndex =>
    if isFenDigit c then decodeRow rank rest (fileIndex + (c.toNat - '0'.toNat))
    else (squareIdOf fileIndex rank, c) :: decodeRow rank rest (fileIndex + 1)

/-- The `rows.forEach` of syncBoard step 1: row at index `rowIndex` describes
rank `8 - rowIndex`. -/
def decodeRowsFrom : List (List Char) → Nat → List (String × Char)
  | [], _ => []
  | row :: rest, rowIndex =>
    decodeRow ((8 : Int) - rowIndex) row 0 ++ decodeRowsFrom rest (rowIndex + 1)

/-- JavaScript `String.prototype.split` with a single-character separator,
on the character list of the string (an empty string splits to `[""]`). -/
def splitOnChar (sep : Char) : List Char → List (List Char)
  | [] => [[]]
  | c :: rest =>
    match splitOnChar sep rest with
    | [] => [[]]
    | h :: t => if c = sep then [] :: h :: t else (c :: h) :: t

/-- `fen.split(' ')[0].split('/')` (embed.js line 413): the part before the
first space, split at every '/'. -/
def fenRows (fen : String) : List (List Char) :=
  splitOnChar '/' (fen.toList.takeWhile (fun c => c ≠ ' '))

/-- The sequence of assignments `newBoardState[sq] = char` performed by
syncBoard step 1, in execution order. -/
def decodePlacement (fen : String) : List (String × Char) :=
  decodeRowsFrom (fenRows fen) 0

/-- `newBoardState` after syncBoard step 1: the assignments applied to the
empty object. -/
def boardStateOf (fen : String) : List (String × Char) :=
  (decodePlacement fen).foldl (fun m kv => upsert m kv.1 kv.2) []

-- ### The reuse pool (`availablePieces`, syncBoard step 2)

/-- `availablePieces`: descriptor character → list of pooled objects, in push
order. -/
abbrev Pool := List (Char × List Piece)

/-- `if (!availablePieces[type]) availablePieces[type] = [];
availablePieces[type].push(p)` (embed.js lines 433-436). -/
def poolPush (pool : Pool) (p : Piece) : Pool :=
  match alookup pool p.pieceType with
  | some l => upsert pool p.pieceType (l ++ [p])
  | none => upsert pool p.pieceType [p]

/-- syncBoard step 2: pool built from `Object.values(state.pieces)` in map
order. -/
def buildPool (cur : PieceMap) : Pool :=
  cur.foldl (fun pool e => poolPush pool e.2) []

/-- Pass 1 removal (embed.js lines 451-455): `indexOf` + `splice` deletes the
first occurrence of the locked object from its descriptor's pool list, if the
list exists and contains it. -/
def poolRemove (pool : Pool) (c : Char) (p : Piece) : Pool :=
  match alookup pool c with
  | some l => upsert pool c (l.erase p)
  | none => pool

/-- Pass 2 reuse (embed.js lines 465-467): `availablePieces[char].pop()` when
the list exists and is non-empty. -/
def poolPop (pool : Pool) (c : Char) : Option (Piece × Pool) :=
  match alookup pool c with
  | some l =>
    match l.getLast? with
    | some p => some (p, upsert pool c l.dropLast)
    | none => none
  | none => none

/-- Step 5 (embed.js lines 482-486): the objects destroyed are the pool lists
flattened in key order. -/
def poolFlatten (pool : Pool) : List Piece :=
  pool.foldl (fun acc e => acc ++ e.2) []

-- ### Pass 1 (embed.js lines 443-460)

/-- Accumulator of the Pass 1 loop: `nextPiecesMap`, `pendingSquares`, and the
mutated `availablePieces`. -/
structure Pass1Out where
  next : PieceMap
  pending : List (String × Char)
  pool : Pool
deriving Repr

/-- One iteration of Pass 1 for the target entry `e = (sq, char)`: lock an
exact in-place match (and remove it from the pool), otherwise push the entry
onto `pendingSquares`. -/
def pass1Step (cur : PieceMap) (acc : Pass1Out) (e : String × Char) : Pass1Out :=
  match alookup cur e.1 with
  | some p =>
    if p.pieceType = e.2 then
      ⟨upsert acc.next e.1 p, acc.pending, poolRemove acc.pool e.2 p⟩
    else ⟨acc.next, acc.pending ++ [e], acc.pool⟩
  | none => ⟨acc.next, acc.pending ++ [e], acc.pool⟩

/-- Pass 1 over the entries of `newBoardState`. -/
def pass1Run (cur : PieceMap) (entries : List (String × Char)) (acc : Pass1Out) : Pass1Out :=
  entries.foldl (pass1Step cur) acc

-- ### Piece creation (embed.js lines 324-401) and Pass 2 (lines 462-479)

/-- `PIECE_MODELS` (embed.js lines 277-280). -/
def PIECE_MODELS : List (Char × String) :=
  [('p', "Pawn.glb"), ('r', "Rook.glb"), ('n', "Knight.glb"),
   ('b', "Bishop.glb"), ('q', "Queen.glb"), ('k', "King.glb")]

/-- `createPiece(char, squareId, parent)`: returns null when the lowercased
descriptor has no model, or when a host scene-graph call throws (abstracted
by the oracle `hostOk`); otherwise returns a fresh object tagged
`piece.pieceType = char`. Fresh identity is the counter `nid`. -/
def createPiece (hostOk : String → Char → Bool) (ch : Char) (sq : String) (nid : Nat) :
    Option Piece :=
  if (alookup PIECE_MODELS ch.toLower).isSome then
    if hostOk sq ch then some ⟨nid, ch⟩ else none
  else none

/-- Whether `createPiece` succeeds (independent of the id counter). -/
def createOkB (hostOk : String → Char → Bool) (sq : String) (ch : Char) : Bool :=
  (alookup PIECE_MODELS ch.toLower).isSome && hostOk sq ch

/-- Accumulator of the Pass 2 loop, extended with the observable effects:
objects newly created and objects relocated (pulled from the pool and
repositioned), plus the fresh-id counter. -/
structure Pass2Out where
  next : PieceMap
  pool : Pool
  created : List Piece
  relocated : List Piece
  nextId : Nat
deriving Repr

/-- One iteration of Pass 2 for a pending `(sq, char)`: reuse (pop and
relocate) a pooled object of the same descriptor if available, otherwise
attempt to create one; `if (piece) nextPiecesMap[sq] = piece`. -/
def pass2Step (hostOk : String → Char → Bool) (acc : Pass2Out) (e : String × Char) : Pass2Out :=
  match poolPop acc.pool e.2 with
  | some (p, pool') =>
    ⟨upsert acc.next e.1 p, pool', acc.created, acc.relocated ++ [p], acc.nextId⟩
  | none =>
    match createPiece hostOk e.2 e.1 acc.nextId with
    | some p =>
      ⟨upsert acc.next e.1 p, acc.pool, acc.created ++ [p], acc.relocated, acc.nextId + 1⟩
    | none => acc

/-- Pass 2 over `pendingSquares`. -/
def pass2Run (hostOk : String → Char → Bool) (pending : List (String × Char))
    (acc : Pass2Out) : Pass2Out :=
  pending.foldl (pass2Step hostOk) acc

-- ### syncBoard (embed.js lines 403-491)

/-- The observable outcome of one `syncBoard()` call: the new `state.pieces`,
the created / destroyed / relocated objects, and the fresh-id counter. -/
structure SyncResult where
  pieces : PieceMap
  created : List Piece
  destroyed : List Piece
  relocated : List Piece
  nextId : Nat
deriving Repr

/-- `syncBoard()`: decode the FEN into `newBoardState`, pool the current
pieces per descriptor, run Pass 1 (lock exact in-place matches) and Pass 2
(reuse or create for pending squares), destroy the leftover pool, and replace
`state.pieces` with `nextPiecesMap`. -/
def syncBoard (fen : String) (cur : PieceMap) (hostOk : String → Char → Bool)
    (nid : Nat) : SyncResult :=
  let board := boardStateOf fen
  let pool := buildPool cur
  let p1 := pass1Run cur board ⟨[], [], pool⟩
  let p2 := pass2Run hostOk p1.pending ⟨p1.next, p1.pool, [], [], nid⟩
  ⟨p2.next, p2.created, poolFlatten p2.pool, p2.relocated, p2.nextId⟩

-- ### Pass 1 characterization

/-- The object that Pass 1 locks in place for target entry `e`, if any: the
current occupant of `e`'s square when its descriptor matches exactly. -/
def lockedPiece (cur : PieceMap) (e : String × Char) : Option Piece :=
  match alookup cur e.1 with
  | some p => if p.pieceType = e.2 then some p else none
  | none => none

/-- The map entry contributed by a locked target entry. -/
def lockEntry (cur : PieceMap) (e : String × Char) : Option (String × Piece) :=
  (lockedPiece cur e).map (fun p => (e.1, p))

theorem pass1Step_lock {cur : PieceMap} {e : String × Char} {p : Piece} (acc : Pass1Out)
    (h : lockedPiece cur e = some p) :
    pass1Step cur acc e = ⟨upsert acc.next e.1 p, acc.pending, poolRemove acc.pool e.2 p⟩ := by
  unfold lockedPiece at h
  unfold pass1Step
  rcases hc : alookup cur e.1 with _ | q
  · rw [hc] at h; exact absurd h (by simp)
  · rw [hc] at h
    by_cases ht : q.pieceType = e.2
    · simp only [if_pos ht, Option.some.injEq] at h
      subst h
      simp [ht]
    · simp [ht] at h

theorem pass1Step_skip {cur : PieceMap} {e : String × Char} (acc : Pass1Out)
    (h : lockedPiece cur e = none) :
    pass1Step cur acc e = ⟨acc.next, acc.pending ++ [e], acc.pool⟩ := by
  unfold lockedPiece at h
  unfold pass1Step
  rcases hc : alookup cur e.1 with _ | q
  · rfl
  · rw [hc] at h
    by_cases ht : q.pieceType = e.2
    · simp [ht] at h
    · simp [ht]

theorem lockedPiece_type {cur : PieceMap} {e : String × Char} {p : Piece}
    (h : lockedPiece cur e = some p) : alookup cur e.1 = some p ∧ p.pieceType = e.2 := by
  unfold lockedPiece at h
  rcases hc : alookup cur e.1 with _ | q
  · rw [hc] at h; exact absurd h (by simp)
  · rw [hc] at h
    by_cases ht : q.pieceType = e.2
    · simp only [if_pos ht, Option.some.injEq] at h
      subst h
      exact ⟨rfl, ht⟩
    · simp [ht] at h

theorem lockedPiece_none {cur : PieceMap} {e : String × Char}
    (h : lockedPiece cur e = none) :
    alookup cur e.1 = none ∨ ∃ q, alookup cur e.1 = some q ∧ q.pieceType ≠ e.2 := by
  unfold lockedPiece at h
  rcases hc : alookup cur e.1 with _ | q
  · exact Or.inl rfl
  · rw [hc] at h
    by_cases ht : q.pieceType = e.2
    · simp [ht] at h
    · exact Or.inr ⟨q, rfl, ht⟩

/-- `pendingSquares` after Pass 1: exactly the target entries with no exact
in-place match, in target order. -/
theorem pass1Run_pending (cur : PieceMap) (entries : List (String × Char)) (acc : Pass1Out) :
    (pass1Run cur entries acc).pending
      = acc.pending ++ entries.filter (fun e => (lockedPiece cur e).isNone) := by
  induction entries generalizing acc with
  | nil => simp [pass1Run]
  | cons e rest ih =>
    simp only [pass1Run, List.foldl_cons]
    rcases hl : lockedPiece cur e with _ | p
    · rw [pass1Step_skip acc hl]
      have := ih ⟨acc.next, acc.pending ++ [e], acc.pool⟩
      simp only [pass1Run] at this
      rw [this]
      simp [List.filter_cons, hl]
    · rw [pass1Step_lock acc hl]
      have := ih ⟨upsert acc.next e.1 p, acc.pending, poolRemove acc.pool e.2 p⟩
      simp only [pass1Run] at this
      rw [this]
      simp [List.filter_cons, hl]

/-- `nextPiecesMap` after Pass 1: the locked entries appended in target
order. -/
theorem pass1Run_next (cur : PieceMap) (entries : List (String × Char)) (acc : Pass1Out)
    (hnd : (keysOf entries).Nodup)
    (hdisj : ∀ k ∈ keysOf entries, k ∉ keysOf acc.next) :
    (pass1Run cur entries acc).next = acc.next ++ entries.filterMap (lockEntry cur) := by
  induction entries generalizing acc with
  | nil => simp [pass1Run]
  | cons e rest ih =>
    rw [keysOf_cons, List.nodup_cons] at hnd
    simp only [pass1Run, List.foldl_cons]
    rcases hl : lockedPiece cur e with _ | p
    · rw [pass1Step_skip acc hl]
      have := ih ⟨acc.next, acc.pending ++ [e], acc.pool⟩ hnd.2
        (fun k hk => hdisj k (by rw [keysOf_cons]; exact List.mem_cons_of_mem _ hk))
      simp only [pass1Run] at this
      rw [this]
      simp [List.filterMap_cons, lockEntry, hl]
    · rw [pass1Step_lock acc hl]
      have hei : e.1 ∉ keysOf acc.next :=
        hdisj e.1 (by rw [keysOf_cons]; exact List.mem_cons_self _ _)
      have hup : upsert acc.next e.1 p = acc.next ++ [(e.1, p)] :=
        upsert_of_not_mem acc.next e.1 p hei
      have := ih ⟨upsert acc.next e.1 p, acc.pending, poolRemove acc.pool e.2 p⟩ hnd.2
        (by
          intro k hk
          rw [hup, keysOf_append]
          intro hmem
          rcases List.mem_append.mp hmem with h1 | h1
          · exact hdisj k (by rw [keysOf_cons]; exact List.mem_cons_of_mem _ hk) h1
          · have : k = e.1 := by simpa [keysOf] using h1
            exact hnd.1 (this ▸ hk))
      simp only [pass1Run] at this
      rw [this, hup]
      simp [List.filterMap_cons, lockEntry, hl]

-- ### Pool invariants

/-- The multiset of objects held in the pool. -/
def poolMS (pool : Pool) : Multiset Piece :=
  (pool.map (fun e => (e.2 : Multiset Piece))).sum

/-- Well-formedness of `availablePieces`: keys are distinct and every pooled
object sits under its own descriptor key. -/
def PoolWF (pool : Pool) : Prop :=
  (keysOf pool).Nodup ∧ ∀ e ∈ pool, ∀ p ∈ e.2, p.pieceType = e.1

theorem poolMS_nil : poolMS [] = 0 := rfl

theorem poolMS_cons (e : Char × List Piece) (pool : Pool) :
    poolMS (e :: pool) = (e.2 : Multiset Piece) + poolMS pool := by
  simp [poolMS]

theorem poolMS_append (pool pool' : Pool) :
    poolMS (pool ++ pool') = poolMS pool + poolMS pool' := by
  simp [poolMS]

theorem mem_poolMS {p : Piece} {pool : Pool} :
    p ∈ poolMS pool ↔ ∃ e ∈ pool, p ∈ e.2 := by
  induction pool with
  | nil => simp [poolMS_nil]
  | cons e rest ih =>
    rw [poolMS_cons, Multiset.mem_add, ih]
    simp

theorem list_le_poolMS {c : Char} {l : List Piece} {pool : Pool}
    (h : (c, l) ∈ pool) : (l : Multiset Piece) ≤ poolMS pool := by
  induction pool with
  | nil => simp at h
  | cons e rest ih =>
    rw [poolMS_cons]
    rcases List.mem_cons.mp h with h1 | h1
    · subst h1
      exact le_add_right le_rfl
    · exact le_add_left (ih h1)

theorem mem_upsert_elem {κ α : Type} [DecidableEq κ] {l : List (κ × α)} {k : κ} {v : α}
    {e : κ × α} (h : e ∈ upsert l k v) : e ∈ l ∨ e = (k, v) := by
  induction l with
  | nil => simp [upsert] at h; exact Or.inr h
  | cons e0 rest ih =>
    by_cases hk : e0.1 = k
    · subst hk
      have hu : upsert (e0 :: rest) e0.1 v = (e0.1, v) :: rest := by simp [upsert]
      rw [hu] at h
      rcases List.mem_cons.mp h with h1 | h1
      · exact Or.inr h1
      · exact Or.inl (List.mem_cons_of_mem _ h1)
    · simp only [upsert, if_neg hk] at h
      rcases List.mem_cons.mp h with h1 | h1
      · exact Or.inl (h1 ▸ List.mem_cons_self _ _)
      · rcases ih h1 with h2 | h2
        · exact Or.inl (List.mem_cons_of_mem _ h2)
        · exact Or.inr h2

theorem keysOf_upsert_of_mem {κ α : Type} [DecidableEq κ] (l : List (κ × α)) (k : κ) (v : α)
    (h : k ∈ keysOf l) : keysOf (upsert l k v) = keysOf l := by
  induction l with
  | nil => simp [keysOf] at h
  | cons e rest ih =>
    by_cases hk : e.1 = k
    · subst hk
      have hu : upsert (e :: rest) e.1 v = (e.1, v) :: rest := by simp [upsert]
      rw [hu, keysOf_cons, keysOf_cons]
    · rw [keysOf_cons, List.mem_cons] at h
      rcases h with h1 | h1
      · exact absurd h1.symm hk
      · simp only [upsert, if_neg hk, keysOf_cons, ih h1]

/-- Multiset effect of replacing the list stored at a present key. -/
theorem poolMS_upsert {pool : Pool} {c : Char} {l : List Piece} (l' : List Piece)
    (hnd : (keysOf pool).Nodup) (hmem : (c, l) ∈ pool) :
    poolMS (upsert pool c l') = poolMS pool - (l : Multiset Piece) + (l' : Multiset Piece) := by
  induction pool with
  | nil => simp at hmem
  | cons e rest ih =>
    rw [keysOf_cons, List.nodup_cons] at hnd
    by_cases hk : e.1 = c
    · subst hk
      have hu : upsert (e :: rest) e.1 l' = (e.1, l') :: rest := by simp [upsert]
      have hl : l = e.2 := by
        rcases List.mem_cons.mp hmem with h1 | h1
        · exact congrArg Prod.snd h1
        · exact absurd ((mem_keysOf_iff rest e.1).mpr ⟨l, h1⟩) hnd.1
      subst hl
      rw [hu, poolMS_cons, poolMS_cons]
      ext q
      simp only [Multiset.count_add, Multiset.count_sub]
      omega
    · have h1 : (c, l) ∈ rest := by
        rcases List.mem_cons.mp hmem with h2 | h2
        · exact absurd (congrArg Prod.fst h2).symm hk
        · exact h2
      have hle : (l : Multiset Piece) ≤ poolMS rest := list_le_poolMS h1
      simp only [upsert, if_neg hk, poolMS_cons, ih hnd.2 h1]
      ext q
      have := Multiset.le_iff_count.mp hle q
      simp only [Multiset.count_add, Multiset.count_sub]
      omega

/-- `poolPush` adds the object to the pool multiset and preserves
well-formedness. -/
theorem poolPush_spec (pool : Pool) (p : Piece) (hwf : PoolWF pool) :
    PoolWF (poolPush pool p) ∧ poolMS (poolPush pool p) = poolMS pool + {p} := by
  unfold poolPush
  rcases hc : alookup pool p.pieceType with _ | l
  · have hnm : p.pieceType ∉ keysOf pool := (alookup_eq_none_iff _ _).mp hc
    rw [upsert_of_not_mem pool p.pieceType [p] hnm]
    constructor
    · constructor
      · rw [keysOf_append]
        simp only [keysOf]
        rw [List.nodup_append]
        refine ⟨hwf.1, List.nodup_singleton _, ?_⟩
        intro a ha hb
        simp at hb
        subst hb
        exact hnm (by simpa [keysOf] using ha)
      · intro e he q hq
        rcases List.mem_append.mp he with h1 | h1
        · exact hwf.2 e h1 q hq
        · simp at h1
          subst h1
          simp at hq
          subst hq
          rfl
    · rw [poolMS_append]
      simp [poolMS_cons, poolMS_nil]
  · have hmem : (p.pieceType, l) ∈ pool := alookup_mem hc
    constructor
    · constructor
      · rw [keysOf_upsert_of_mem pool p.pieceType (l ++ [p])
          ((mem_keysOf_iff _ _).mpr ⟨l, hmem⟩)]
        exact hwf.1
      · intro e he q hq
        rcases mem_upsert_elem he with h1 | h1
        · exact hwf.2 e h1 q hq
        · subst h1
          rcases List.mem_append.mp hq with h2 | h2
          · exact hwf.2 _ hmem q h2
          · simp at h2
            subst h2
            rfl
    · rw [poolMS_upsert (l ++ [p]) hwf.1 hmem]
      have hle : (l : Multiset Piece) ≤ poolMS pool := list_le_poolMS hmem
      have hcoe : ((l ++ [p] : List Piece) : Multiset Piece)
          = (l : Multiset Piece) + {p} := by
        rw [← Multiset.coe_add]
        rfl
      rw [hcoe]
      ext q
      have := Multiset.le_iff_count.mp hle q
      simp only [Multiset.count_add, Multiset.count_sub]
      omega

/-- `buildPool` is well-formed and holds exactly the current map's objects. -/
theorem buildPool_spec (cur : PieceMap) :
    PoolWF (buildPool cur) ∧ poolMS (buildPool cur) = (cur.map Prod.snd : Multiset Piece) := by
  have main : ∀ (l : PieceMap) (acc : Pool), PoolWF acc →
      PoolWF (l.foldl (fun pool e => poolPush pool e.2) acc) ∧
      poolMS (l.foldl (fun pool e => poolPush pool e.2) acc)
        = poolMS acc + (l.map Prod.snd : Multiset Piece) := by
    intro l
    induction l with
    | nil =>
      intro acc hacc
      refine ⟨hacc, ?_⟩
      simp
    | cons e rest ih =>
      intro acc hacc
      simp only [List.foldl_cons]
      have hstep := poolPush_spec acc e.2 hacc
      have := ih (poolPush acc e.2) hstep.1
      refine ⟨this.1, ?_⟩
      rw [this.2, hstep.2]
      simp only [List.map_cons]
      rw [← Multiset.cons_coe, add_assoc, Multiset.singleton_add]
  have := main cur [] ⟨List.nodup_nil, by simp⟩
  simpa [buildPool, poolMS_nil] using this

/-- `poolRemove` preserves well-formedness (whether or not the object is
found). -/
theorem poolRemove_wf {pool : Pool} (c : Char) (p : Piece) (hwf : PoolWF pool) :
    PoolWF (poolRemove pool c p) := by
  unfold poolRemove
  rcases hc : alookup pool c with _ | l
  · exact hwf
  · have hmem : (c, l) ∈ pool := alookup_mem hc
    constructor
    · rw [keysOf_upsert_of_mem pool c (l.erase p) ((mem_keysOf_iff _ _).mpr ⟨l, hmem⟩)]
      exact hwf.1
    · intro e he q hq
      rcases mem_upsert_elem he with h1 | h1
      · exact hwf.2 e h1 q hq
      · subst h1
        exact hwf.2 _ hmem q (List.mem_of_mem_erase hq)

/-- Multiset effect of a successful Pass 1 removal. -/
theorem poolRemove_ms {pool : Pool} {p : Piece} (hwf : PoolWF pool)
    (hp : p ∈ poolMS pool) :
    poolMS (poolRemove pool p.pieceType p) = (poolMS pool).erase p := by
  rcases mem_poolMS.mp hp with ⟨e, he, hpe⟩
  have htype : p.pieceType = e.1 := hwf.2 e he p hpe
  have hlk : alookup pool e.1 = some e.2 := mem_alookup hwf.1 (by cases e; exact he)
  unfold poolRemove
  rw [htype, hlk]
  have hmem : (e.1, e.2) ∈ pool := by cases e; exact he
  rw [poolMS_upsert (e.2.erase p) hwf.1 hmem]
  have hle : (e.2 : Multiset Piece) ≤ poolMS pool := list_le_poolMS hmem
  have herase : ((e.2.erase p : List Piece) : Multiset Piece)
      = (e.2 : Multiset Piece).erase p := (Multiset.coe_erase e.2 p).symm ▸ rfl
  rw [herase]
  ext q
  have hcnt := Multiset.le_iff_count.mp hle q
  by_cases hq : q = p
  · subst hq
    have hql : 1 ≤ Multiset.count q (e.2 : Multiset Piece) := by
      rw [Multiset.one_le_count_iff_mem]
      simpa using hpe
    simp only [Multiset.count_add, Multiset.count_sub, Multiset.count_erase_self]
    omega
  · simp only [Multiset.count_add, Multiset.count_sub,
      Multiset.count_erase_of_ne hq]
    omega

/-- A successful Pass 2 pop returns a pooled object of the requested
descriptor and erases it from the pool. -/
theorem poolPop_some {pool : Pool} {c : Char} {p : Piece} {pool' : Pool}
    (hwf : PoolWF pool) (h : poolPop pool c = some (p, pool')) :
    p.pieceType = c ∧ p ∈ poolMS pool ∧ PoolWF pool' ∧
      poolMS pool' = (poolMS pool).erase p := by
  rcases hc : alookup pool c with _ | l
  · simp only [poolPop, hc] at h
    exact Option.noConfusion h
  · rcases hg : l.getLast? with _ | q
    · simp only [poolPop, hc, hg] at h
      exact Option.noConfusion h
    · simp only [poolPop, hc, hg, Option.some.injEq, Prod.mk.injEq] at h
      obtain ⟨hpq, hpool⟩ := h
      rw [hpq] at hg
      subst hpool
      have hmem : (c, l) ∈ pool := alookup_mem hc
      have hne : l ≠ [] := by
        intro hnil
        rw [hnil] at hg
        exact Option.noConfusion hg
      have hlast : l.getLast hne = p := by
        have := List.getLast?_eq_getLast l hne
        rw [this] at hg
        exact (Option.some.injEq _ _).mp hg
      have hpl : p ∈ l := hlast ▸ List.getLast_mem hne
      have hsplit : l.dropLast ++ [p] = l := by
        rw [← hlast]
        exact List.dropLast_append_getLast hne
      have htype : p.pieceType = c := hwf.2 _ hmem p hpl
      have hpm : p ∈ poolMS pool := mem_poolMS.mpr ⟨(c, l), hmem, hpl⟩
      refine ⟨htype, hpm, ?_, ?_⟩
      · constructor
        · rw [keysOf_upsert_of_mem pool c l.dropLast ((mem_keysOf_iff _ _).mpr ⟨l, hmem⟩)]
          exact hwf.1
        · intro e he q hq
          rcases mem_upsert_elem he with h1 | h1
          · exact hwf.2 e h1 q hq
          · subst h1
            exact hwf.2 _ hmem q (List.dropLast_subset l hq)
      · rw [poolMS_upsert l.dropLast hwf.1 hmem]
        have hle : (l : Multiset Piece) ≤ poolMS pool := list_le_poolMS hmem
        have hlcoe : (l : Multiset Piece)
            = (l.dropLast : Multiset Piece) + {p} := by
          conv_lhs => rw [← hsplit]
          rw [← Multiset.coe_add]
          rfl
        ext q
        have hcnt := Multiset.le_iff_count.mp hle q
        rw [hlcoe] at hcnt ⊢
        by_cases hq : q = p
        · subst hq
          simp only [Multiset.count_add, Multiset.count_sub, Multiset.count_erase_self,
            Multiset.count_singleton_self] at hcnt ⊢
          omega
        · simp only [Multiset.count_add, Multiset.count_sub,
            Multiset.count_erase_of_ne hq, Multiset.count_singleton, if_neg hq] at hcnt ⊢
          omega

/-- A failed Pass 2 pop means the pool holds no object of that descriptor. -/
theorem poolPop_none {pool : Pool} {c : Char} (hwf : PoolWF pool)
    (h : poolPop pool c = none) : ∀ p ∈ poolMS pool, p.pieceType ≠ c := by
  intro p hp
  rcases mem_poolMS.mp hp with ⟨e, he, hpe⟩
  have htype : p.pieceType = e.1 := hwf.2 e he p hpe
  intro hc
  rw [htype] at hc
  subst hc
  have hlk : alookup pool e.1 = some e.2 := mem_alookup hwf.1 (by cases e; exact he)
  rcases hg : e.2.getLast? with _ | q
  · have : e.2 = [] := by
      cases hlist : e.2 with
      | nil => rfl
      | cons a rest =>
        rw [hlist] at hg
        rw [List.getLast?_eq_getLast _ (by simp)] at hg
        exact Option.noConfusion hg
    rw [this] at hpe
    simp at hpe
  · simp only [poolPop, hlk, hg] at h
    exact Option.noConfusion h

/-- An empty pool multiset makes every pop fail. -/
theorem poolPop_none_of_zero {pool : Pool} (c : Char) (h : poolMS pool = 0) :
    poolPop pool c = none := by
  unfold poolPop
  rcases hc : alookup pool c with _ | l
  · rfl
  · have hmem : (c, l) ∈ pool := alookup_mem hc
    have hle : (l : Multiset Piece) ≤ poolMS pool := list_le_poolMS hmem
    rw [h] at hle
    have : (l : Multiset Piece) = 0 := Multiset.le_zero.mp hle
    have hnil : l = [] := by
      cases l with
      | nil => rfl
      | cons a rest => simp at this
    subst hnil
    rfl

/-- The destroyed list is the pool multiset, flattened. -/
theorem poolFlatten_ms (pool : Pool) :
    ((poolFlatten pool : List Piece) : Multiset Piece) = poolMS pool := by
  have main : ∀ (l : Pool) (acc : List Piece),
      ((l.foldl (fun a e => a ++ e.2) acc : List Piece) : Multiset Piece)
        = (acc : Multiset Piece) + poolMS l := by
    intro l
    induction l with
    | nil => intro acc; simp [poolMS_nil]
    | cons e rest ih =>
      intro acc
      simp only [List.foldl_cons]
      rw [ih (acc ++ e.2), poolMS_cons, ← Multiset.coe_add, add_assoc]
  have := main pool []
  simpa [poolFlatten] using this

theorem ms_cons_le_erase {α : Type} [DecidableEq α] {p : α} {s t : Multiset α}
    (h : p ::ₘ s ≤ t) : s ≤ t.erase p := by
  rw [Multiset.le_iff_count]
  intro a
  have := Multiset.le_iff_count.mp h a
  rw [Multiset.count_cons] at this
  by_cases ha : a = p
  · subst ha
    rw [Multiset.count_erase_self]
    simp at this
    omega
  · rw [Multiset.count_erase_of_ne ha]
    simp [ha] at this
    omega

/-- Pass 1 preserves pool well-formedness. -/
theorem pass1Run_pool_wf (cur : PieceMap) (entries : List (String × Char)) (acc : Pass1Out)
    (hwf : PoolWF acc.pool) : PoolWF (pass1Run cur entries acc).pool := by
  induction entries generalizing acc with
  | nil => exact hwf
  | cons e rest ih =>
    simp only [pass1Run, List.foldl_cons]
    rcases hl : lockedPiece cur e with _ | p
    · rw [pass1Step_skip acc hl]
      exact ih _ hwf
    · rw [pass1Step_lock acc hl]
      exact ih _ (poolRemove_wf e.2 p hwf)

/-- Multiset effect of Pass 1 on the pool: exactly the locked objects leave
it (given that they are present, with multiplicity). -/
theorem pass1Run_pool_ms (cur : PieceMap) (entries : List (String × Char)) (acc : Pass1Out)
    (hwf : PoolWF acc.pool)
    (hle : ((entries.filterMap (lockedPiece cur) : List Piece) : Multiset Piece)
      ≤ poolMS acc.pool) :
    poolMS (pass1Run cur entries acc).pool
      = poolMS acc.pool - (entries.filterMap (lockedPiece cur) : Multiset Piece) := by
  induction entries generalizing acc with
  | nil => simp [pass1Run]
  | cons e rest ih =>
    simp only [pass1Run, List.foldl_cons]
    rcases hl : lockedPiece cur e with _ | p
    · rw [pass1Step_skip acc hl]
      have := ih ⟨acc.next, acc.pending ++ [e], acc.pool⟩ hwf
        (by simpa [List.filterMap_cons, hl] using hle)
      simp only [pass1Run] at this
      rw [this]
      simp [List.filterMap_cons, hl]
    · rw [pass1Step_lock acc hl]
      have hcoe : ((List.filterMap (lockedPiece cur) (e :: rest) : List Piece) : Multiset Piece)
          = p ::ₘ ((rest.filterMap (lockedPiece cur) : List Piece) : Multiset Piece) := by
        simp [List.filterMap_cons, hl]
      rw [hcoe] at hle
      have hpmem : p ∈ poolMS acc.pool :=
        Multiset.mem_of_le hle (Multiset.mem_cons_self _ _)
      have htype : p.pieceType = e.2 := (lockedPiece_type hl).2
      have hrem_ms : poolMS (poolRemove acc.pool e.2 p) = (poolMS acc.pool).erase p := by
        rw [← htype]
        exact poolRemove_ms hwf hpmem
      have hrem_wf : PoolWF (poolRemove acc.pool e.2 p) := poolRemove_wf e.2 p hwf
      have hle' : ((rest.filterMap (lockedPiece cur) : List Piece) : Multiset Piece)
          ≤ poolMS (poolRemove acc.pool e.2 p) := by
        rw [hrem_ms]
        exact ms_cons_le_erase hle
      have := ih ⟨upsert acc.next e.1 p, acc.pending, poolRemove acc.pool e.2 p⟩ hrem_wf hle'
      simp only [pass1Run] at this
      rw [this, hrem_ms, hcoe, Multiset.sub_cons]

-- ### Pass 2 step equations and run lemmas

theorem pass2Step_pop {hostOk : String → Char → Bool} {acc : Pass2Out} {e : String × Char}
    {p : Piece} {pool' : Pool} (h : poolPop acc.pool e.2 = some (p, pool')) :
    pass2Step hostOk acc e
      = ⟨upsert acc.next e.1 p, pool', acc.created, acc.relocated ++ [p], acc.nextId⟩ := by
  simp [pass2Step, h]

theorem pass2Step_create {hostOk : String → Char → Bool} {acc : Pass2Out} {e : String × Char}
    {p : Piece} (h : poolPop acc.pool e.2 = none)
    (hcr : createPiece hostOk e.2 e.1 acc.nextId = some p) :
    pass2Step hostOk acc e
      = ⟨upsert acc.next e.1 p, acc.pool, acc.created ++ [p], acc.relocated, acc.nextId + 1⟩ := by
  simp [pass2Step, h, hcr]

theorem pass2Step_skip {hostOk : String → Char → Bool} {acc : Pass2Out} {e : String × Char}
    (h : poolPop acc.pool e.2 = none)
    (hcr : createPiece hostOk e.2 e.1 acc.nextId = none) :
    pass2Step hostOk acc e = acc := by
  simp [pass2Step, h, hcr]

theorem createPiece_eq (hostOk : String → Char → Bool) (ch : Char) (sq : String) (nid : Nat) :
    createPiece hostOk ch sq nid
      = if createOkB hostOk sq ch then some ⟨nid, ch⟩ else none := by
  unfold createPiece createOkB
  by_cases h1 : (alookup PIECE_MODELS ch.toLower).isSome
  · by_cases h2 : hostOk sq ch
    · simp [h1, h2]
    · simp [h1, h2]
  · simp [h1]

/-- Squares not pending keep whatever Pass 1 gave them. -/
theorem pass2Run_frame (hostOk : String → Char → Bool) (pending : List (String × Char))
    (acc : Pass2Out) (sq : String) (hsq : sq ∉ keysOf pending) :
    alookup (pass2Run hostOk pending acc).next sq = alookup acc.next sq := by
  induction pending generalizing acc with
  | nil => rfl
  | cons e rest ih =>
    rw [keysOf_cons, List.mem_cons] at hsq
    have hne : sq ≠ e.1 := fun hc => hsq (Or.inl hc)
    have hrest : sq ∉ keysOf rest := fun hc => hsq (Or.inr hc)
    simp only [pass2Run, List.foldl_cons]
    rcases hp : poolPop acc.pool e.2 with _ | pr
    · rcases hcr : createPiece hostOk e.2 e.1 acc.nextId with _ | q
      · rw [pass2Step_skip hp hcr]
        exact ih acc hrest
      · rw [pass2Step_create hp hcr]
        have := ih ⟨upsert acc.next e.1 q, acc.pool, acc.created ++ [q], acc.relocated,
          acc.nextId + 1⟩ hrest
        simp only [pass2Run] at this
        rw [this]
        exact alookup_upsert_ne acc.next e.1 sq q hne
    · rcases pr with ⟨p, pool'⟩
      rw [pass2Step_pop hp]
      have := ih ⟨upsert acc.next e.1 p, pool', acc.created, acc.relocated ++ [p],
        acc.nextId⟩ hrest
      simp only [pass2Run] at this
      rw [this]
      exact alookup_upsert_ne acc.next e.1 sq p hne

/-- Pass 2 preserves pool well-formedness. -/
theorem pass2Run_pool_wf (hostOk : String → Char → Bool) (pending : List (String × Char))
    (acc : Pass2Out) (hwf : PoolWF acc.pool) : PoolWF (pass2Run hostOk pending acc).pool := by
  induction pending generalizing acc with
  | nil => exact hwf
  | cons e rest ih =>
    simp only [pass2Run, List.foldl_cons]
    rcases hp : poolPop acc.pool e.2 with _ | pr
    · rcases hcr : createPiece hostOk e.2 e.1 acc.nextId with _ | q
      · rw [pass2Step_skip hp hcr]; exact ih acc hwf
      · rw [pass2Step_create hp hcr]; exact ih _ hwf
    · rcases pr with ⟨p, pool'⟩
      rw [pass2Step_pop hp]
      exact ih _ (poolPop_some hwf hp).2.2.1

theorem pass2Run_cons (hostOk : String → Char → Bool) (e : String × Char)
    (rest : List (String × Char)) (acc : Pass2Out) :
    pass2Run hostOk (e :: rest) acc = pass2Run hostOk rest (pass2Step hostOk acc e) := rfl

/-- Each pending square either ends up holding an object of the requested
descriptor, or stays absent because creation fails for it. -/
theorem pass2Run_resolve (hostOk : String → Char → Bool) (pending : List (String × Char))
    (acc : Pass2Out) (hnd : (keysOf pending).Nodup) (hwf : PoolWF acc.pool)
    (hnone : ∀ e ∈ pending, alookup acc.next e.1 = none) :
    ∀ e ∈ pending,
      (∃ p, alookup (pass2Run hostOk pending acc).next e.1 = some p ∧ p.pieceType = e.2) ∨
      (alookup (pass2Run hostOk pending acc).next e.1 = none
        ∧ createOkB hostOk e.1 e.2 = false) := by
  induction pending generalizing acc with
  | nil => intro e he; simp at he
  | cons e0 rest ih =>
    rw [keysOf_cons, List.nodup_cons] at hnd
    intro e he
    rw [pass2Run_cons]
    rcases hp : poolPop acc.pool e0.2 with _ | pr
    · rcases hcr : createPiece hostOk e0.2 e0.1 acc.nextId with _ | q
      · -- skipped: creation fails for e0
        rw [pass2Step_skip hp hcr]
        rcases List.mem_cons.mp he with he1 | he1
        · subst he1
          right
          have hfin : alookup (pass2Run hostOk rest acc).next e.1 = alookup acc.next e.1 :=
            pass2Run_frame hostOk rest acc e.1 hnd.1
          refine ⟨hfin.trans (hnone e (List.mem_cons_self _ _)), ?_⟩
          rw [createPiece_eq] at hcr
          by_cases hok : createOkB hostOk e.1 e.2
          · rw [if_pos hok] at hcr; exact Option.noConfusion hcr
          · simpa using hok
        · exact ih acc hnd.2 hwf
            (fun e' he' => hnone e' (List.mem_cons_of_mem _ he')) e he1
      · -- created a fresh object for e0
        rw [pass2Step_create hp hcr]
        rcases List.mem_cons.mp he with he1 | he1
        · subst he1
          left
          have hfin := pass2Run_frame hostOk rest
            ⟨upsert acc.next e.1 q, acc.pool, acc.created ++ [q], acc.relocated,
              acc.nextId + 1⟩ e.1 hnd.1
          refine ⟨q, ?_, ?_⟩
          · rw [hfin]
            exact alookup_upsert_self acc.next e.1 q
          · rw [createPiece_eq] at hcr
            by_cases hok : createOkB hostOk e.1 e.2
            · rw [if_pos hok] at hcr
              cases hcr
              rfl
            · rw [if_neg hok] at hcr
              exact Option.noConfusion hcr
        · refine ih ⟨upsert acc.next e0.1 q, acc.pool, acc.created ++ [q], acc.relocated,
            acc.nextId + 1⟩ hnd.2 hwf ?_ e he1
          intro e' he'
          have : alookup (upsert acc.next e0.1 q) e'.1 = alookup acc.next e'.1 :=
            alookup_upsert_ne acc.next e0.1 e'.1 q
              (fun hc => hnd.1 (hc ▸ (mem_keysOf_iff _ _).mpr ⟨e'.2, he'⟩))
          exact this.trans (hnone e' (List.mem_cons_of_mem _ he'))
    · -- reused a pooled object for e0
      rcases pr with ⟨p, pool'⟩
      rw [pass2Step_pop hp]
      have hspec := poolPop_some hwf hp
      rcases List.mem_cons.mp he with he1 | he1
      · subst he1
        left
        have hfin := pass2Run_frame hostOk rest
          ⟨upsert acc.next e.1 p, pool', acc.created, acc.relocated ++ [p],
            acc.nextId⟩ e.1 hnd.1
        refine ⟨p, ?_, hspec.1⟩
        rw [hfin]
        exact alookup_upsert_self acc.next e.1 p
      · refine ih ⟨upsert acc.next e0.1 p, pool', acc.created, acc.relocated ++ [p],
          acc.nextId⟩ hnd.2 hspec.2.2.1 ?_ e he1
        intro e' he'
        have : alookup (upsert acc.next e0.1 p) e'.1 = alookup acc.next e'.1 :=
          alookup_upsert_ne acc.next e0.1 e'.1 p
            (fun hc => hnd.1 (hc ▸ (mem_keysOf_iff _ _).mpr ⟨e'.2, he'⟩))
        exact this.trans (hnone e' (List.mem_cons_of_mem _ he'))

-- ### Assembling syncBoard facts

/-- The Pass 1 state computed inside `syncBoard`. -/
def pass1Of (fen : String) (cur : PieceMap) : Pass1Out :=
  pass1Run cur (boardStateOf fen) ⟨[], [], buildPool cur⟩

/-- The Pass 2 state computed inside `syncBoard`. -/
def pass2Of (fen : String) (cur : PieceMap) (hostOk : String → Char → Bool)
    (nid : Nat) : Pass2Out :=
  pass2Run hostOk (pass1Of fen cur).pending
    ⟨(pass1Of fen cur).next, (pass1Of fen cur).pool, [], [], nid⟩

theorem syncBoard_eq (fen : String) (cur : PieceMap) (hostOk : String → Char → Bool)
    (nid : Nat) :
    syncBoard fen cur hostOk nid
      = ⟨(pass2Of fen cur hostOk nid).next, (pass2Of fen cur hostOk nid).created,
          poolFlatten (pass2Of fen cur hostOk nid).pool,
          (pass2Of fen cur hostOk nid).relocated,
          (pass2Of fen cur hostOk nid).nextId⟩ := rfl

theorem boardStateOf_keys_nodup (fen : String) :
    (keysOf (boardStateOf fen)).Nodup := by
  have main : ∀ (l : List (String × Char)) (acc : List (String × Char)),
      (keysOf acc).Nodup →
      (keysOf (l.foldl (fun m kv => upsert m kv.1 kv.2) acc)).Nodup := by
    intro l
    induction l with
    | nil => intro acc h; exact h
    | cons e rest ih =>
      intro acc h
      exact ih (upsert acc e.1 e.2) (keysOf_upsert_nodup acc e.1 e.2 h)
  exact main (decodePlacement fen) [] (by simp [keysOf])

theorem keysOf_filterMap_lock_sublist (cur : PieceMap) (entries : List (String × Char)) :
    List.Sublist (keysOf (entries.filterMap (lockEntry cur))) (keysOf entries) := by
  induction entries with
  | nil => simp [keysOf]
  | cons e rest ih =>
    rw [List.filterMap_cons]
    rcases hl : lockEntry cur e with _ | pe
    · exact ih.trans (List.sublist_cons_self _ _)
    · have : pe.1 = e.1 := by
        unfold lockEntry at hl
        rcases hp : lockedPiece cur e with _ | p
        · rw [hp] at hl; exact Option.noConfusion hl
        · rw [hp] at hl
          simp at hl
          rw [← hl]
      rw [keysOf_cons, keysOf_cons, this]
      exact List.Sublist.cons₂ _ ih

theorem mem_keysOf_filterMap_lock {cur : PieceMap} {entries : List (String × Char)} {k : String}
    (h : k ∈ keysOf (entries.filterMap (lockEntry cur))) :
    ∃ c p, (k, c) ∈ entries ∧ lockedPiece cur (k, c) = some p := by
  rcases (mem_keysOf_iff _ _).mp h with ⟨v, hv⟩
  rcases List.mem_filterMap.mp hv with ⟨e, he, hle⟩
  unfold lockEntry at hle
  rcases hp : lockedPiece cur e with _ | p
  · rw [hp] at hle; exact Option.noConfusion hle
  · rw [hp] at hle
    simp at hle
    obtain ⟨hk, hpv⟩ := hle
    refine ⟨e.2, p, ?_, ?_⟩
    · rw [← hk]; simpa using he
    · have : (k, e.2) = e := by rw [← hk]
      rw [this]
      exact hp

theorem alookup_unique_of_nodup {κ α : Type} [DecidableEq κ] {l : List (κ × α)} {k : κ}
    {a b : α} (hnd : (keysOf l).Nodup) (ha : (k, a) ∈ l) (hb : (k, b) ∈ l) : a = b := by
  have h1 := mem_alookup hnd ha
  have h2 := mem_alookup hnd hb
  rw [h1] at h2
  exact (Option.some.injEq _ _).mp h2

/-- Behaviour of one `syncBoard` call at each square: a square empty in the
decoded FEN ends up empty; an occupied square either holds an object of the
decoded descriptor, or is missing exactly when piece creation fails for
that descriptor. -/
theorem syncBoard_lookup_spec (fen : String) (cur : PieceMap)
    (hostOk : String → Char → Bool) (nid : Nat) :
    (∀ sq, alookup (boardStateOf fen) sq = none →
        alookup (syncBoard fen cur hostOk nid).pieces sq = none) ∧
    (∀ sq c, alookup (boardStateOf fen) sq = some c →
        (∃ p, alookup (syncBoard fen cur hostOk nid).pieces sq = some p ∧ p.pieceType = c) ∨
        (alookup (syncBoard fen cur hostOk nid).pieces sq = none
          ∧ createOkB hostOk sq c = false)) := by
  have hbnd := boardStateOf_keys_nodup fen
  have hwf0 := (buildPool_spec cur).1
  have hnext : (pass1Of fen cur).next
      = (boardStateOf fen).filterMap (lockEntry cur) := by
    have := pass1Run_next cur (boardStateOf fen) ⟨[], [], buildPool cur⟩ hbnd
      (by intro k hk; simp [keysOf])
    simpa [pass1Of] using this
  have hpend : (pass1Of fen cur).pending
      = (boardStateOf fen).filter (fun e => (lockedPiece cur e).isNone) := by
    have := pass1Run_pending cur (boardStateOf fen) ⟨[], [], buildPool cur⟩
    simpa [pass1Of] using this
  have hwf1 : PoolWF (pass1Of fen cur).pool :=
    pass1Run_pool_wf cur (boardStateOf fen) ⟨[], [], buildPool cur⟩ hwf0
  have hnknd : (keysOf (pass1Of fen cur).next).Nodup := by
    rw [hnext]
    exact (keysOf_filterMap_lock_sublist cur (boardStateOf fen)).nodup hbnd
  have hpsub : (pass1Of fen cur).pending.Sublist (boardStateOf fen) := by
    rw [hpend]
    exact List.filter_sublist _
  have hpknd : (keysOf (pass1Of fen cur).pending).Nodup :=
    (hpsub.map Prod.fst).nodup hbnd
  have hpnone : ∀ e ∈ (pass1Of fen cur).pending, alookup (pass1Of fen cur).next e.1 = none := by
    intro e he
    rw [alookup_eq_none_iff, hnext]
    intro hkey
    rcases mem_keysOf_filterMap_lock hkey with ⟨c', p, hmem, hlock⟩
    rw [hpend, List.mem_filter] at he
    have hce : c' = e.2 := by
      have hmem2 : (e.1, e.2) ∈ boardStateOf fen := by
        simpa using he.1
      exact alookup_unique_of_nodup hbnd hmem hmem2
    rw [hce] at hlock
    have : lockedPiece cur e = some p := by
      have he2 : (e.1, e.2) = e := rfl
      rw [← he2]
      exact hlock
    rw [this] at he
    simp at he
  constructor
  · intro sq hb
    rw [syncBoard_eq]
    have hsq_board : sq ∉ keysOf (boardStateOf fen) := (alookup_eq_none_iff _ _).mp hb
    have hsq_pend : sq ∉ keysOf (pass1Of fen cur).pending := by
      intro hc
      exact hsq_board ((hpsub.map Prod.fst).subset hc)
    have := pass2Run_frame hostOk (pass1Of fen cur).pending
      ⟨(pass1Of fen cur).next, (pass1Of fen cur).pool, [], [], nid⟩ sq hsq_pend
    simp only [pass2Of]
    rw [this]
    rw [alookup_eq_none_iff, hnext]
    intro hc
    exact hsq_board ((keysOf_filterMap_lock_sublist cur (boardStateOf fen)).subset hc)
  · intro sq c hb
    have hmem : (sq, c) ∈ boardStateOf fen := alookup_mem hb
    rcases hl : lockedPiece cur (sq, c) with _ | p
    · -- unmatched: the square is pending, Pass 2 decides it
      have hpmem : (sq, c) ∈ (pass1Of fen cur).pending := by
        rw [hpend, List.mem_filter]
        exact ⟨hmem, by simp [hl]⟩
      have := pass2Run_resolve hostOk (pass1Of fen cur).pending
        ⟨(pass1Of fen cur).next, (pass1Of fen cur).pool, [], [], nid⟩
        hpknd hwf1 hpnone (sq, c) hpmem
      rw [syncBoard_eq]
      simpa [pass2Of] using this
    · -- locked in place in Pass 1
      left
      have hentry : (sq, p) ∈ (pass1Of fen cur).next := by
        rw [hnext]
        exact List.mem_filterMap.mpr ⟨(sq, c), hmem, by simp [lockEntry, hl]⟩
      have hsq_pend : sq ∉ keysOf (pass1Of fen cur).pending := by
        intro hc
        rcases (mem_keysOf_iff _ _).mp hc with ⟨c', hc'⟩
        have hcb : (sq, c') ∈ boardStateOf fen := hpsub.subset hc'
        have : c' = c := alookup_unique_of_nodup hbnd hcb hmem
        rw [this] at hc'
        rw [hpend, List.mem_filter] at hc'
        rw [hl] at hc'
        simp at hc'
      rw [syncBoard_eq]
      have hframe := pass2Run_frame hostOk (pass1Of fen cur).pending
        ⟨(pass1Of fen cur).next, (pass1Of fen cur).pool, [], [], nid⟩ sq hsq_pend
      simp only [pass2Of]
      rw [hframe]
      exact ⟨p, mem_alookup hnknd hentry, (lockedPiece_type hl).2⟩

/-- C1: with every needed creation succeeding, the occupied squares of the
new piece map are exactly the squares decoded from the FEN placement field,
with matching descriptors. -/
theorem syncBoard_matches_fen (fen : String) (cur : PieceMap)
    (hostOk : String → Char → Bool) (nid : Nat)
    (hcreate : ∀ e ∈ boardStateOf fen, createOkB hostOk e.1 e.2 = true) :
    (∀ sq, (alookup (syncBoard fen cur hostOk nid).pieces sq).isSome
        ↔ (alookup (boardStateOf fen) sq).isSome) ∧
    (∀ sq c, alookup (boardStateOf fen) sq = some c →
        ∃ p, alookup (syncBoard fen cur hostOk nid).pieces sq = some p ∧ p.pieceType = c) := by
  obtain ⟨hempty, hocc⟩ := syncBoard_lookup_spec fen cur hostOk nid
  have hocc' : ∀ sq c, alookup (boardStateOf fen) sq = some c →
      ∃ p, alookup (syncBoard fen cur hostOk nid).pieces sq = some p ∧ p.pieceType = c := by
    intro sq c hb
    rcases hocc sq c hb with h | h
    · exact h
    · have := hcreate (sq, c) (alookup_mem hb)
      rw [h.2] at this
      exact Bool.noConfusion this
  refine ⟨?_, hocc'⟩
  intro sq
  constructor
  · intro hs
    rcases hbv : alookup (boardStateOf fen) sq with _ | c
    · rw [hempty sq hbv] at hs
      simp at hs
    · simp
  · intro hs
    rcases hbv : alookup (boardStateOf fen) sq with _ | c
    · rw [hbv] at hs; simp at hs
    · rcases hocc' sq c hbv with ⟨p, hp, _⟩
      simp [hp]

/-- The standard starting position (what `chess.reset()` loads). -/
def startFen : String := "rnbqkbnr/pppppppp/8/8/8/8/PPPPPPPP/RNBQKBNR w KQkq - 0 1"

/-- Witness for C1: the standard starting position reconciled onto an empty
board, every creation succeeding. -/
theorem syncBoard_matches_fen_witness :
    (∀ e ∈ boardStateOf startFen, createOkB (fun _ _ => true) e.1 e.2 = true) ∧
    ((∀ sq, (alookup (syncBoard startFen [] (fun _ _ => true) 0).pieces sq).isSome
        ↔ (alookup (boardStateOf startFen) sq).isSome) ∧
      (∀ sq c, alookup (boardStateOf startFen) sq = some c →
        ∃ p, alookup (syncBoard startFen [] (fun _ _ => true) 0).pieces sq = some p
          ∧ p.pieceType = c)) :=
  ⟨by decide, syncBoard_matches_fen startFen [] (fun _ _ => true) 0 (by decide)⟩

-- ### Counting pooled and locked objects by key

theorem count_values_eq (m : PieceMap) (hnd : (keysOf m).Nodup) (v : Piece) :
    Multiset.count v ((m.map Prod.snd : List Piece) : Multiset Piece)
      = ((keysOf m).toFinset.filter (fun k => alookup m k = some v)).card := by
  induction m with
  | nil => simp [keysOf]
  | cons e rest ih =>
    rw [keysOf_cons, List.nodup_cons] at hnd
    have hnotin : e.1 ∉ (keysOf rest).toFinset := by
      rw [List.mem_toFinset]; exact hnd.1
    have hcongr : ((keysOf rest).toFinset.filter
          (fun k => alookup (e :: rest) k = some v)).card
        = ((keysOf rest).toFinset.filter (fun k => alookup rest k = some v)).card := by
      congr 1
      apply Finset.filter_congr
      intro k hk
      have hke : e.1 ≠ k := by
        intro hc
        exact hnd.1 (hc ▸ List.mem_toFinset.mp hk)
      simp [alookup, hke]
    rw [List.map_cons, keysOf_cons, List.toFinset_cons, Finset.filter_insert]
    have hself : alookup (e :: rest) e.1 = some e.2 := by simp [alookup]
    rw [← Multiset.cons_coe, Multiset.count_cons]
    by_cases hv : e.2 = v
    · subst hv
      rw [if_pos hself]
      rw [Finset.card_insert_of_not_mem (fun hc => hnotin (Finset.mem_of_mem_filter _ hc))]
      rw [hcongr, ih hnd.2]
      simp
    · have : ¬ (alookup (e :: rest) e.1 = some v) := by
        rw [hself]
        simp [hv]
      rw [if_neg this, hcongr, ih hnd.2]
      simp [Ne.symm hv, hv]

theorem count_locked_eq (cur : PieceMap) (b : List (String × Char))
    (hnd : (keysOf b).Nodup) (v : Piece) :
    Multiset.count v ((b.filterMap (lockedPiece cur) : List Piece) : Multiset Piece)
      = ((keysOf b).toFinset.filter
          (fun k => alookup cur k = some v ∧ alookup b k = some v.pieceType)).card := by
  induction b with
  | nil => simp [keysOf]
  | cons e rest ih =>
    rw [keysOf_cons, List.nodup_cons] at hnd
    have hnotin : e.1 ∉ (keysOf rest).toFinset := by
      rw [List.mem_toFinset]; exact hnd.1
    have hself : alookup (e :: rest) e.1 = some e.2 := by simp [alookup]
    have hcongr : ((keysOf rest).toFinset.filter
          (fun k => alookup cur k = some v ∧ alookup (e :: rest) k = some v.pieceType)).card
        = ((keysOf rest).toFinset.filter
          (fun k => alookup cur k = some v ∧ alookup rest k = some v.pieceType)).card := by
      congr 1
      apply Finset.filter_congr
      intro k hk
      have hke : e.1 ≠ k := by
        intro hc
        exact hnd.1 (hc ▸ List.mem_toFinset.mp hk)
      simp [alookup, hke]
    rw [keysOf_cons, List.toFinset_cons, Finset.filter_insert, List.filterMap_cons]
    rcases hl : lockedPiece cur e with _ | w
    · have hfalse : ¬ (alookup cur e.1 = some v ∧ alookup (e :: rest) e.1 = some v.pieceType) := by
        rintro ⟨h1, h2⟩
        rw [hself] at h2
        have h2' : e.2 = v.pieceType := by
          injection h2
        rcases lockedPiece_none hl with h3 | ⟨q, h3, h4⟩
        · rw [h3] at h1; exact Option.noConfusion h1
        · rw [h3] at h1
          injection h1 with h1'
          exact h4 (by rw [h1', ← h2'])
      rw [if_neg hfalse, hcongr, ih hnd.2]
    · obtain ⟨hcw, htw⟩ := lockedPiece_type hl
      rw [← Multiset.cons_coe, Multiset.count_cons]
      by_cases hv : w = v
      · subst hv
        have htrue : alookup cur e.1 = some w ∧ alookup (e :: rest) e.1 = some w.pieceType := by
          refine ⟨hcw, ?_⟩
          rw [hself, htw]
        rw [if_pos htrue]
        rw [Finset.card_insert_of_not_mem (fun hc => hnotin (Finset.mem_of_mem_filter _ hc))]
        rw [hcongr, ih hnd.2]
        simp
      · have hfalse : ¬ (alookup cur e.1 = some v ∧ alookup (e :: rest) e.1 = some v.pieceType) := by
          rintro ⟨h1, _⟩
          rw [hcw] at h1
          injection h1 with h1'
          exact hv h1'
        rw [if_neg hfalse, hcongr, ih hnd.2]
        simp [Ne.symm hv, hv]

/-- The locked objects are present in the current map's values, with
multiplicity. -/
theorem locked_le_values (cur : PieceMap) (b : List (String × Char))
    (hndc : (keysOf cur).Nodup) (hndb : (keysOf b).Nodup) :
    ((b.filterMap (lockedPiece cur) : List Piece) : Multiset Piece)
      ≤ ((cur.map Prod.snd : List Piece) : Multiset Piece) := by
  rw [Multiset.le_iff_count]
  intro v
  rw [count_locked_eq cur b hndb v, count_values_eq cur hndc v]
  apply Finset.card_le_card
  intro k hk
  rw [Finset.mem_filter] at hk ⊢
  refine ⟨?_, hk.2.1⟩
  rw [List.mem_toFinset]
  rw [← alookup_isSome_iff_mem]
  rw [hk.2.1]
  rfl

-- ### Structural corollaries about one syncBoard call

/-- Every object stored by `syncBoard` sits on a square whose decoded
descriptor is its own `pieceType`. -/
theorem syncBoard_pieces_type (fen : String) (cur : PieceMap)
    (hostOk : String → Char → Bool) (nid : Nat) :
    ∀ sq p, alookup (syncBoard fen cur hostOk nid).pieces sq = some p →
      alookup (boardStateOf fen) sq = some p.pieceType := by
  intro sq p hp
  obtain ⟨hempty, hocc⟩ := syncBoard_lookup_spec fen cur hostOk nid
  rcases hb : alookup (boardStateOf fen) sq with _ | c
  · rw [hempty sq hb] at hp
    exact Option.noConfusion hp
  · rcases hocc sq c hb with ⟨q, hq, hqt⟩ | ⟨hnone, _⟩
    · rw [hp] at hq
      injection hq with hq'
      rw [hq', hqt]
    · rw [hnone] at hp
      exact Option.noConfusion hp

/-- A decoded square left empty by `syncBoard` is one whose creation
failed. -/
theorem syncBoard_absent_createFail (fen : String) (cur : PieceMap)
    (hostOk : String → Char → Bool) (nid : Nat) :
    ∀ sq c, alookup (boardStateOf fen) sq = some c →
      alookup (syncBoard fen cur hostOk nid).pieces sq = none →
      createOkB hostOk sq c = false := by
  intro sq c hb hnone
  obtain ⟨_, hocc⟩ := syncBoard_lookup_spec fen cur hostOk nid
  rcases hocc sq c hb with ⟨q, hq, _⟩ | ⟨_, hfail⟩
  · rw [hnone] at hq
    exact Option.noConfusion hq
  · exact hfail

theorem pass2Run_keys_nodup (hostOk : String → Char → Bool) (pending : List (String × Char))
    (acc : Pass2Out) (h : (keysOf acc.next).Nodup) :
    (keysOf (pass2Run hostOk pending acc).next).Nodup := by
  induction pending generalizing acc with
  | nil => exact h
  | cons e rest ih =>
    rw [pass2Run_cons]
    rcases hp : poolPop acc.pool e.2 with _ | pr
    · rcases hcr : createPiece hostOk e.2 e.1 acc.nextId with _ | q
      · rw [pass2Step_skip hp hcr]; exact ih acc h
      · rw [pass2Step_create hp hcr]
        exact ih _ (keysOf_upsert_nodup acc.next e.1 q h)
    · rcases pr with ⟨p, pool'⟩
      rw [pass2Step_pop hp]
      exact ih _ (keysOf_upsert_nodup acc.next e.1 p h)

/-- `nextPiecesMap` never holds two entries for one square. -/
theorem syncBoard_keys_nodup (fen : String) (cur : PieceMap)
    (hostOk : String → Char → Bool) (nid : Nat) :
    (keysOf (syncBoard fen cur hostOk nid).pieces).Nodup := by
  rw [syncBoard_eq]
  apply pass2Run_keys_nodup
  have hnext := pass1Run_next cur (boardStateOf fen) ⟨[], [], buildPool cur⟩
    (boardStateOf_keys_nodup fen) (by intro k hk; simp [keysOf])
  have : (pass1Of fen cur).next = (boardStateOf fen).filterMap (lockEntry cur) := by
    simpa [pass1Of] using hnext
  rw [this]
  exact (keysOf_filterMap_lock_sublist cur (boardStateOf fen)).nodup
    (boardStateOf_keys_nodup fen)

theorem pass2Run_all_skip (hostOk : String → Char → Bool) (pending : List (String × Char))
    (acc : Pass2Out)
    (h : ∀ e ∈ pending, poolPop acc.pool e.2 = none
      ∧ createPiece hostOk e.2 e.1 acc.nextId = none) :
    pass2Run hostOk pending acc = acc := by
  induction pending with
  | nil => rfl
  | cons e rest ih =>
    rw [pass2Run_cons]
    obtain ⟨hp, hcr⟩ := h e (List.mem_cons_self _ _)
    rw [pass2Step_skip hp hcr]
    exact ih (fun e' he' => h e' (List.mem_cons_of_mem _ he'))

/-- C2: an immediate second reconciliation with the same FEN creates,
destroys and relocates nothing — every target square is already matched in
Pass 1 and the pool drains completely — and leaves the piece map unchanged. -/
theorem syncBoard_idempotent (fen : String) (cur : PieceMap)
    (hostOk : String → Char → Bool) (nid : Nat) :
    (syncBoard fen (syncBoard fen cur hostOk nid).pieces hostOk
        (syncBoard fen cur hostOk nid).nextId).created = [] ∧
    (syncBoard fen (syncBoard fen cur hostOk nid).pieces hostOk
        (syncBoard fen cur hostOk nid).nextId).destroyed = [] ∧
    (syncBoard fen (syncBoard fen cur hostOk nid).pieces hostOk
        (syncBoard fen cur hostOk nid).nextId).relocated = [] ∧
    (∀ sq, alookup (syncBoard fen (syncBoard fen cur hostOk nid).pieces hostOk
        (syncBoard fen cur hostOk nid).nextId).pieces sq
      = alookup (syncBoard fen cur hostOk nid).pieces sq) := by
  have hbnd := boardStateOf_keys_nodup fen
  have hm1nd : (keysOf (syncBoard fen cur hostOk nid).pieces).Nodup :=
    syncBoard_keys_nodup fen cur hostOk nid
  have hF2 := syncBoard_pieces_type fen cur hostOk nid
  have hF3 := syncBoard_absent_createFail fen cur hostOk nid
  -- abbreviations for the second run
  have hnext2 : (pass1Of fen (syncBoard fen cur hostOk nid).pieces).next
      = (boardStateOf fen).filterMap (lockEntry (syncBoard fen cur hostOk nid).pieces) := by
    have := pass1Run_next (syncBoard fen cur hostOk nid).pieces (boardStateOf fen)
      ⟨[], [], buildPool (syncBoard fen cur hostOk nid).pieces⟩ hbnd
      (by intro k hk; simp [keysOf])
    simpa [pass1Of] using this
  have hpend2 : (pass1Of fen (syncBoard fen cur hostOk nid).pieces).pending
      = (boardStateOf fen).filter
          (fun e => (lockedPiece (syncBoard fen cur hostOk nid).pieces e).isNone) := by
    have := pass1Run_pending (syncBoard fen cur hostOk nid).pieces (boardStateOf fen)
      ⟨[], [], buildPool (syncBoard fen cur hostOk nid).pieces⟩
    simpa [pass1Of] using this
  -- any occupied square of the first run's map locks in Pass 1 of the second
  have hlock_some : ∀ sq c p, alookup (boardStateOf fen) sq = some c →
      alookup (syncBoard fen cur hostOk nid).pieces sq = some p →
      lockedPiece (syncBoard fen cur hostOk nid).pieces (sq, c) = some p := by
    intro sq c p hbc hmp
    have hbt := hF2 sq p hmp
    rw [hbc] at hbt
    have htc : p.pieceType = c := by
      injection hbt with h
      exact h.symm
    simp only [lockedPiece, hmp]
    rw [if_pos htc]
  have hpend_none : ∀ e ∈ (pass1Of fen (syncBoard fen cur hostOk nid).pieces).pending,
      alookup (syncBoard fen cur hostOk nid).pieces e.1 = none := by
    intro e he
    rw [hpend2, List.mem_filter] at he
    obtain ⟨heb, hiso⟩ := he
    rcases hml : alookup (syncBoard fen cur hostOk nid).pieces e.1 with _ | p
    · rfl
    · have hbe : alookup (boardStateOf fen) e.1 = some e.2 := mem_alookup hbnd heb
      have := hlock_some e.1 e.2 p hbe hml
      have he2 : (e.1, e.2) = e := rfl
      rw [he2] at this
      rw [this] at hiso
      simp at hiso
  -- the pool of the second run drains completely in Pass 1
  have hwf0 := (buildPool_spec (syncBoard fen cur hostOk nid).pieces).1
  have hval := (buildPool_spec (syncBoard fen cur hostOk nid).pieces).2
  have hle := locked_le_values (syncBoard fen cur hostOk nid).pieces (boardStateOf fen)
    hm1nd hbnd
  have hcount_eq : ∀ v : Piece,
      Multiset.count v (((syncBoard fen cur hostOk nid).pieces.map Prod.snd : List Piece)
        : Multiset Piece)
      = Multiset.count v (((boardStateOf fen).filterMap
          (lockedPiece (syncBoard fen cur hostOk nid).pieces) : List Piece)
        : Multiset Piece) := by
    intro v
    rw [count_values_eq _ hm1nd v, count_locked_eq _ _ hbnd v]
    congr 1
    apply Finset.ext
    intro k
    rw [Finset.mem_filter, Finset.mem_filter]
    constructor
    · rintro ⟨hkm, hkv⟩
      have hbt := hF2 k v hkv
      refine ⟨?_, hkv, hbt⟩
      rw [List.mem_toFinset, ← alookup_isSome_iff_mem, hbt]
      rfl
    · rintro ⟨hkb, hkv, _⟩
      refine ⟨?_, hkv⟩
      rw [List.mem_toFinset, ← alookup_isSome_iff_mem, hkv]
      rfl
  have hpool2 : poolMS (pass1Of fen (syncBoard fen cur hostOk nid).pieces).pool = 0 := by
    have hms := pass1Run_pool_ms (syncBoard fen cur hostOk nid).pieces (boardStateOf fen)
      ⟨[], [], buildPool (syncBoard fen cur hostOk nid).pieces⟩ hwf0
      (le_of_le_of_eq hle hval.symm)
    have hred : (⟨[], [], buildPool (syncBoard fen cur hostOk nid).pieces⟩ : Pass1Out).pool
        = buildPool (syncBoard fen cur hostOk nid).pieces := rfl
    rw [hred, hval] at hms
    have hfin : poolMS (pass1Of fen (syncBoard fen cur hostOk nid).pieces).pool
        = (((syncBoard fen cur hostOk nid).pieces.map Prod.snd : List Piece) : Multiset Piece)
          - (((boardStateOf fen).filterMap
              (lockedPiece (syncBoard fen cur hostOk nid).pieces) : List Piece)
            : Multiset Piece) := hms
    rw [hfin, tsub_eq_zero_iff_le, Multiset.le_iff_count]
    intro v
    rw [hcount_eq v]
  -- Pass 2 of the second run does nothing
  have hskip : ∀ e ∈ (pass1Of fen (syncBoard fen cur hostOk nid).pieces).pending,
      poolPop (pass1Of fen (syncBoard fen cur hostOk nid).pieces).pool e.2 = none
        ∧ createPiece hostOk e.2 e.1 (syncBoard fen cur hostOk nid).nextId = none := by
    intro e he
    refine ⟨poolPop_none_of_zero e.2 hpool2, ?_⟩
    rw [createPiece_eq]
    have heb : e ∈ boardStateOf fen := by
      rw [hpend2, List.mem_filter] at he
      exact he.1
    have hcf : createOkB hostOk e.1 e.2 = false :=
      hF3 e.1 e.2 (mem_alookup hbnd heb) (hpend_none e he)
    rw [hcf]
    simp
  have hp2 : pass2Of fen (syncBoard fen cur hostOk nid).pieces hostOk
      (syncBoard fen cur hostOk nid).nextId
      = ⟨(pass1Of fen (syncBoard fen cur hostOk nid).pieces).next,
          (pass1Of fen (syncBoard fen cur hostOk nid).pieces).pool, [], [],
          (syncBoard fen cur hostOk nid).nextId⟩ := by
    unfold pass2Of
    exact pass2Run_all_skip hostOk _ _ (fun e he => hskip e he)
  -- the second run's map agrees with the first run's map everywhere
  have hknd2 : (keysOf ((boardStateOf fen).filterMap
      (lockEntry (syncBoard fen cur hostOk nid).pieces))).Nodup :=
    (keysOf_filterMap_lock_sublist _ (boardStateOf fen)).nodup hbnd
  have hmap : ∀ sq, alookup (pass1Of fen (syncBoard fen cur hostOk nid).pieces).next sq
      = alookup (syncBoard fen cur hostOk nid).pieces sq := by
    intro sq
    rw [hnext2]
    rcases hml : alookup (syncBoard fen cur hostOk nid).pieces sq with _ | p
    · rw [alookup_eq_none_iff]
      intro hkey
      rcases mem_keysOf_filterMap_lock hkey with ⟨c, p, _, hlockp⟩
      have := (lockedPiece_type hlockp).1
      rw [hml] at this
      exact Option.noConfusion this
    · have hbt : alookup (boardStateOf fen) sq = some p.pieceType := hF2 sq p hml
      have hmemb : (sq, p.pieceType) ∈ boardStateOf fen := alookup_mem hbt
      have hlockp := hlock_some sq p.pieceType p hbt hml
      exact mem_alookup hknd2 (List.mem_filterMap.mpr
        ⟨(sq, p.pieceType), hmemb, by simp [lockEntry, hlockp]⟩)
  -- read off the four conclusions
  rw [syncBoard_eq fen (syncBoard fen cur hostOk nid).pieces hostOk
    (syncBoard fen cur hostOk nid).nextId, hp2]
  refine ⟨rfl, ?_, rfl, ?_⟩
  · have hflat := poolFlatten_ms (pass1Of fen (syncBoard fen cur hostOk nid).pieces).pool
    rw [hpool2] at hflat
    exact (Multiset.coe_eq_zero _).mp hflat
  · intro sq
    exact hmap sq

-- ### A move's effect on the pool

/-- The list stored under descriptor `c` holds exactly the pooled objects of
that descriptor. -/
theorem pool_list_eq_filter {pool : Pool} (c : Char) (hwf : PoolWF pool) :
    (((alookup pool c).getD [] : List Piece) : Multiset Piece)
      = (poolMS pool).filter (fun p => p.pieceType = c) := by
  induction pool with
  | nil => simp [alookup, poolMS_nil]
  | cons e rest ih =>
    obtain ⟨hnd, htyped⟩ := hwf
    rw [keysOf_cons, List.nodup_cons] at hnd
    have hwfr : PoolWF rest := ⟨hnd.2, fun e' he' => htyped e' (List.mem_cons_of_mem _ he')⟩
    have hhead : ∀ p ∈ e.2, p.pieceType = e.1 := htyped e (List.mem_cons_self _ _)
    rw [poolMS_cons, Multiset.filter_add]
    by_cases hc : e.1 = c
    · subst hc
      have h1 : alookup (e :: rest) e.1 = some e.2 := by simp [alookup]
      rw [h1]
      have h2 : Multiset.filter (fun p => p.pieceType = e.1) (e.2 : Multiset Piece)
          = (e.2 : Multiset Piece) := by
        rw [Multiset.filter_eq_self]
        intro a ha
        exact hhead a (by simpa using ha)
      have h3 : Multiset.filter (fun p => p.pieceType = e.1) (poolMS rest) = 0 := by
        rw [Multiset.filter_eq_nil]
        intro a ha
        rcases mem_poolMS.mp ha with ⟨e', he', hae'⟩
        rw [hwfr.2 e' he' a hae']
        intro hcon
        exact hnd.1 (hcon ▸ (mem_keysOf_iff rest e'.1).mpr ⟨e'.2, he'⟩)
      rw [h2, h3, add_zero]
      rfl
    · have h1 : alookup (e :: rest) c = alookup rest c := by simp [alookup, hc]
      rw [h1]
      have h2 : Multiset.filter (fun p => p.pieceType = c) (e.2 : Multiset Piece) = 0 := by
        rw [Multiset.filter_eq_nil]
        intro a ha
        rw [hhead a (by simpa using ha)]
        exact hc
      rw [h2, zero_add]
      exact ih hwfr

/-- When the pool holds exactly one object of descriptor `c`, Pass 2 pops
exactly that object. -/
theorem poolPop_singleton {pool : Pool} {c : Char} {p : Piece}
    (hwf : PoolWF pool)
    (hfilter : (poolMS pool).filter (fun q => q.pieceType = c) = {p}) :
    ∃ pool', poolPop pool c = some (p, pool')
      ∧ poolMS pool' = (poolMS pool).erase p ∧ PoolWF pool' := by
  have hlist := pool_list_eq_filter c hwf
  rw [hfilter] at hlist
  rcases halk : alookup pool c with _ | l
  · rw [halk] at hlist
    simp at hlist
  · rw [halk] at hlist
    simp only [Option.getD_some] at hlist
    have hl : l = [p] := Multiset.coe_eq_singleton.mp hlist
    subst hl
    have hpop : poolPop pool c = some (p, upsert pool c [].dropLast) := by
      simp [poolPop, halk]
    have hspec := poolPop_some hwf hpop
    exact ⟨upsert pool c [].dropLast, hpop, hspec.2.2.2, hspec.2.2.1⟩

/-- A filter keeping exactly one element of a duplicate-free list yields
that singleton. -/
theorem filter_eq_singleton_of_unique {α : Type} [DecidableEq α] {l : List α}
    {pred : α → Bool} {x : α} (hnd : l.Nodup) (hx : x ∈ l) (hxp : pred x = true)
    (honly : ∀ e ∈ l, pred e = true → e = x) : l.filter pred = [x] := by
  induction l with
  | nil => simp at hx
  | cons a rest ih =>
    rw [List.nodup_cons] at hnd
    by_cases pa : pred a = true
    · have hax : a = x := honly a (List.mem_cons_self _ _) pa
      subst hax
      rw [List.filter_cons, if_pos pa]
      have hrest : rest.filter pred = [] := by
        rw [List.filter_eq_nil_iff]
        intro e he
        intro hpe
        have := honly e (List.mem_cons_of_mem _ he) hpe
        exact hnd.1 (this ▸ he)
      rw [hrest]
    · have hxa : x ≠ a := by
        intro hc
        rw [hc] at hxp
        exact pa hxp
      have hxr : x ∈ rest := by
        rcases List.mem_cons.mp hx with h1 | h1
        · exact absurd h1 hxa
        · exact h1
      rw [List.filter_cons, if_neg pa]
      exact ih hnd.2 hxr (fun e he hpe => honly e (List.mem_cons_of_mem _ he) hpe)

/-- When exactly the square `s2` fails to match in place, `pendingSquares`
is that single square. -/
theorem pending_singleton (fen : String) (cur : PieceMap) (s2 : String) (d : Char)
    (hb2 : alookup (boardStateOf fen) s2 = some d)
    (hnolock : lockedPiece cur (s2, d) = none)
    (hlockrest : ∀ e ∈ boardStateOf fen, e.1 ≠ s2 → (lockedPiece cur e).isSome) :
    (pass1Of fen cur).pending = [(s2, d)] := by
  have hbnd := boardStateOf_keys_nodup fen
  have hpend : (pass1Of fen cur).pending
      = (boardStateOf fen).filter (fun e => (lockedPiece cur e).isNone) := by
    have := pass1Run_pending cur (boardStateOf fen) ⟨[], [], buildPool cur⟩
    simpa [pass1Of] using this
  rw [hpend]
  apply filter_eq_singleton_of_unique (List.Nodup.of_map Prod.fst hbnd)
    (alookup_mem hb2) (by simp [hnolock])
  intro e he hpe
  by_cases hes : e.1 = s2
  · have hbe : alookup (boardStateOf fen) e.1 = some e.2 := mem_alookup hbnd he
    rw [hes, hb2] at hbe
    have hed : e.2 = d := by
      injection hbe with h
      exact h.symm
    calc e = (e.1, e.2) := rfl
    _ = (s2, d) := by rw [hes, hed]
  · have := hlockrest e he hes
    rcases hl : lockedPiece cur e with _ | w
    · rw [hl] at this; simp at this
    · rw [hl] at hpe; simp at hpe

/-- Running `syncBoard` when Pass 1 leaves a single pending square whose
descriptor has exactly one pooled object: that object is relocated, nothing
is created, and the destroyed objects are the rest of the pool. -/
theorem sync_single_pending (fen : String) (cur : PieceMap)
    (hostOk : String → Char → Bool) (nid : Nat) (s2 : String) (d : Char) (p : Piece)
    (hpend : (pass1Of fen cur).pending = [(s2, d)])
    (hfilter : (poolMS (pass1Of fen cur).pool).filter (fun q => q.pieceType = d) = {p}) :
    (syncBoard fen cur hostOk nid).created = [] ∧
    (syncBoard fen cur hostOk nid).relocated = [p] ∧
    (((syncBoard fen cur hostOk nid).destroyed : List Piece) : Multiset Piece)
      = (poolMS (pass1Of fen cur).pool).erase p := by
  have hwf1 : PoolWF (pass1Of fen cur).pool :=
    pass1Run_pool_wf cur (boardStateOf fen) ⟨[], [], buildPool cur⟩ (buildPool_spec cur).1
  obtain ⟨pool', hpop, hms, _⟩ := poolPop_singleton hwf1 hfilter
  rw [syncBoard_eq]
  have hstep : pass2Step hostOk
      ⟨(pass1Of fen cur).next, (pass1Of fen cur).pool, [], [], nid⟩ (s2, d)
      = ⟨upsert (pass1Of fen cur).next s2 p, pool', [], [] ++ [p], nid⟩ :=
    @pass2Step_pop hostOk ⟨(pass1Of fen cur).next, (pass1Of fen cur).pool, [], [], nid⟩
      (s2, d) p pool' hpop
  have hp2 : pass2Of fen cur hostOk nid
      = ⟨upsert (pass1Of fen cur).next s2 p, pool', [], [] ++ [p], nid⟩ := by
    unfold pass2Of
    rw [hpend, pass2Run_cons, hstep]
    rfl
  rw [hp2]
  refine ⟨rfl, by simp, ?_⟩
  rw [poolFlatten_ms pool']
  exact hms

/-- Pool content after Pass 1, for a piece map without duplicate squares:
the current objects minus the locked ones. -/
theorem pass1_pool_values_sub (fen : String) (cur : PieceMap)
    (hkeys : (keysOf cur).Nodup) :
    poolMS (pass1Of fen cur).pool
      = ((cur.map Prod.snd : List Piece) : Multiset Piece)
        - (((boardStateOf fen).filterMap (lockedPiece cur) : List Piece) : Multiset Piece) := by
  have hbnd := boardStateOf_keys_nodup fen
  have hwf0 := (buildPool_spec cur).1
  have hval := (buildPool_spec cur).2
  have hle := locked_le_values cur (boardStateOf fen) hkeys hbnd
  have hms := pass1Run_pool_ms cur (boardStateOf fen) ⟨[], [], buildPool cur⟩ hwf0
    (le_of_le_of_eq hle hval.symm)
  have hred : (⟨[], [], buildPool cur⟩ : Pass1Out).pool = buildPool cur := rfl
  rw [hred, hval] at hms
  exact hms

/-- Same-descriptor occupancy agreement between a piece-map entry and a
decoded-board entry at one square. -/
def descMatch : Option Piece → Option Char → Bool
  | some p, some c => p.pieceType = c
  | none, none => true
  | _, _ => false

theorem descMatch_some_left {op : Option Piece} {oc : Option Char} {v : Piece}
    (h : descMatch op oc = true) (hv : op = some v) : oc = some v.pieceType := by
  subst hv
  rcases oc with _ | c
  · simp [descMatch] at h
  · simp [descMatch] at h
    rw [h]

theorem descMatch_some_right {op : Option Piece} {oc : Option Char} {c : Char}
    (h : descMatch op oc = true) (hc : oc = some c) :
    ∃ v, op = some v ∧ v.pieceType = c := by
  subst hc
  rcases op with _ | v
  · simp [descMatch] at h
  · simp [descMatch] at h
    exact ⟨v, rfl, h⟩

/-- C3: a reconciliation in which one descriptor leaves square `s1` and
appears on the previously empty square `s2` (no capture, no promotion)
relocates at most 2 rendered objects — in fact exactly the mover — and
creates and destroys none. -/
theorem syncBoard_simple_move (fen : String) (cur : PieceMap)
    (hostOk : String → Char → Bool) (nid : Nat) (s1 s2 : String) (d : Char) (p : Piece)
    (hkeys : (keysOf cur).Nodup)
    (hc1 : alookup cur s1 = some p) (hpd : p.pieceType = d)
    (hc2 : alookup cur s2 = none)
    (hb1 : alookup (boardStateOf fen) s1 = none)
    (hb2 : alookup (boardStateOf fen) s2 = some d)
    (hrest : ∀ sq ∈ keysOf cur ++ keysOf (boardStateOf fen), sq ≠ s1 → sq ≠ s2 →
      descMatch (alookup cur sq) (alookup (boardStateOf fen) sq) = true) :
    (syncBoard fen cur hostOk nid).created = [] ∧
    (syncBoard fen cur hostOk nid).destroyed = [] ∧
    (syncBoard fen cur hostOk nid).relocated = [p] ∧
    (syncBoard fen cur hostOk nid).relocated.length ≤ 2 := by
  have hbnd := boardStateOf_keys_nodup fen
  -- every decoded square other than s2 locks its current occupant in place
  have hlockrest : ∀ e ∈ boardStateOf fen, e.1 ≠ s2 → (lockedPiece cur e).isSome := by
    intro e he hne2
    have hbe : alookup (boardStateOf fen) e.1 = some e.2 := mem_alookup hbnd he
    have hne1 : e.1 ≠ s1 := by
      intro hcon
      rw [hcon, hb1] at hbe
      exact Option.noConfusion hbe
    have hkb : e.1 ∈ keysOf cur ++ keysOf (boardStateOf fen) := by
      apply List.mem_append.mpr
      right
      rw [← alookup_isSome_iff_mem, hbe]
      rfl
    rcases descMatch_some_right (hrest e.1 hkb hne1 hne2) hbe with ⟨v, hv, hvt⟩
    simp [lockedPiece, hv, hvt]
  have hnolock : lockedPiece cur (s2, d) = none := by
    simp [lockedPiece, hc2]
  have hpend := pending_singleton fen cur s2 d hb2 hnolock hlockrest
  -- after Pass 1 the pool holds exactly the mover
  have hpool : poolMS (pass1Of fen cur).pool = {p} := by
    rw [pass1_pool_values_sub fen cur hkeys]
    refine Multiset.ext.mpr ?_
    intro v
    rw [Multiset.count_sub, count_values_eq cur hkeys v,
      count_locked_eq cur (boardStateOf fen) hbnd v, Multiset.count_singleton]
    by_cases hv : v = p
    · subst hv
      have hs1A : s1 ∈ (keysOf cur).toFinset.filter (fun k => alookup cur k = some v) := by
        rw [Finset.mem_filter, List.mem_toFinset]
        exact ⟨by rw [← alookup_isSome_iff_mem, hc1]; rfl, hc1⟩
      have hBA : (keysOf (boardStateOf fen)).toFinset.filter
            (fun k => alookup cur k = some v ∧ alookup (boardStateOf fen) k = some v.pieceType)
          = ((keysOf cur).toFinset.filter (fun k => alookup cur k = some v)).erase s1 := by
        apply Finset.ext
        intro k
        rw [Finset.mem_filter, Finset.mem_erase, Finset.mem_filter,
          List.mem_toFinset, List.mem_toFinset]
        constructor
        · rintro ⟨hkb, hkc, hkt⟩
          refine ⟨?_, ?_, hkc⟩
          · intro hcon
            rw [hcon] at hkb
            exact (alookup_eq_none_iff _ _).mp hb1 hkb
          · rw [← alookup_isSome_iff_mem, hkc]
            rfl
        · rintro ⟨hne1, hkcur, hkc⟩
          have hne2 : k ≠ s2 := by
            intro hcon
            rw [hcon, hc2] at hkc
            exact Option.noConfusion hkc
          have hkt := descMatch_some_left
            (hrest k (List.mem_append.mpr (Or.inl hkcur)) hne1 hne2) hkc
          refine ⟨?_, hkc, hkt⟩
          rw [← alookup_isSome_iff_mem, hkt]
          rfl
      rw [hBA, Finset.card_erase_of_mem hs1A]
      have hpos : 1 ≤ ((keysOf cur).toFinset.filter
          (fun k => alookup cur k = some v)).card :=
        Finset.card_pos.mpr ⟨s1, hs1A⟩
      have hone : (if v = v then 1 else 0) = 1 := if_pos rfl
      rw [hone]
      omega
    · have hBA : (keysOf (boardStateOf fen)).toFinset.filter
            (fun k => alookup cur k = some v ∧ alookup (boardStateOf fen) k = some v.pieceType)
          = (keysOf cur).toFinset.filter (fun k => alookup cur k = some v) := by
        apply Finset.ext
        intro k
        rw [Finset.mem_filter, Finset.mem_filter, List.mem_toFinset, List.mem_toFinset]
        constructor
        · rintro ⟨hkb, hkc, hkt⟩
          refine ⟨?_, hkc⟩
          rw [← alookup_isSome_iff_mem, hkc]
          rfl
        · rintro ⟨hkcur, hkc⟩
          have hne1 : k ≠ s1 := by
            intro hcon
            rw [hcon, hc1] at hkc
            injection hkc with h
            exact hv h.symm
          have hne2 : k ≠ s2 := by
            intro hcon
            rw [hcon, hc2] at hkc
            exact Option.noConfusion hkc
          have hkt := descMatch_some_left
            (hrest k (List.mem_append.mpr (Or.inl hkcur)) hne1 hne2) hkc
          refine ⟨?_, hkc, hkt⟩
          rw [← alookup_isSome_iff_mem, hkt]
          rfl
      rw [hBA, if_neg hv]
      omega
  have hfilter : (poolMS (pass1Of fen cur).pool).filter (fun q => q.pieceType = d) = {p} := by
    rw [hpool, Multiset.filter_singleton, if_pos hpd]
  obtain ⟨hcr, hrel, hdes⟩ := sync_single_pending fen cur hostOk nid s2 d p hpend hfilter
  rw [hpool, Multiset.erase_singleton] at hdes
  exact ⟨hcr, (Multiset.coe_eq_zero _).mp hdes, hrel, by rw [hrel]; simp⟩

/-- C4: a capture — descriptor `d` vacates `s1` and replaces the different
descriptor `d'` on the occupied square `s2` — destroys exactly the captured
object, relocates exactly the mover (pulled from the reuse pool in Pass 2),
and creates nothing. -/
theorem syncBoard_capture (fen : String) (cur : PieceMap)
    (hostOk : String → Char → Bool) (nid : Nat) (s1 s2 : String) (d dc : Char)
    (p q : Piece)
    (hkeys : (keysOf cur).Nodup)
    (hc1 : alookup cur s1 = some p) (hpd : p.pieceType = d)
    (hc2 : alookup cur s2 = some q) (hqd : q.pieceType = dc) (hdd : dc ≠ d)
    (hb1 : alookup (boardStateOf fen) s1 = none)
    (hb2 : alookup (boardStateOf fen) s2 = some d)
    (hrest : ∀ sq ∈ keysOf cur ++ keysOf (boardStateOf fen), sq ≠ s1 → sq ≠ s2 →
      descMatch (alookup cur sq) (alookup (boardStateOf fen) sq) = true) :
    (syncBoard fen cur hostOk nid).created = [] ∧
    (syncBoard fen cur hostOk nid).destroyed = [q] ∧
    (syncBoard fen cur hostOk nid).relocated = [p] := by
  have hbnd := boardStateOf_keys_nodup fen
  have hpq : p ≠ q := by
    intro hcon
    apply hdd
    rw [← hqd, ← hcon, hpd]
  have hlockrest : ∀ e ∈ boardStateOf fen, e.1 ≠ s2 → (lockedPiece cur e).isSome := by
    intro e he hne2
    have hbe : alookup (boardStateOf fen) e.1 = some e.2 := mem_alookup hbnd he
    have hne1 : e.1 ≠ s1 := by
      intro hcon
      rw [hcon, hb1] at hbe
      exact Option.noConfusion hbe
    have hkb : e.1 ∈ keysOf cur ++ keysOf (boardStateOf fen) := by
      apply List.mem_append.mpr
      right
      rw [← alookup_isSome_iff_mem, hbe]
      rfl
    rcases descMatch_some_right (hrest e.1 hkb hne1 hne2) hbe with ⟨v, hv, hvt⟩
    simp [lockedPiece, hv, hvt]
  have hnolock : lockedPiece cur (s2, d) = none := by
    have : ¬ (q.pieceType = d) := by
      rw [hqd]
      exact hdd
    simp [lockedPiece, hc2, this]
  have hpend := pending_singleton fen cur s2 d hb2 hnolock hlockrest
  -- after Pass 1 the pool holds exactly the mover and the captured object
  have hpool : poolMS (pass1Of fen cur).pool = p ::ₘ {q} := by
    rw [pass1_pool_values_sub fen cur hkeys]
    refine Multiset.ext.mpr ?_
    intro v
    rw [Multiset.count_sub, count_values_eq cur hkeys v,
      count_locked_eq cur (boardStateOf fen) hbnd v, Multiset.count_cons,
      Multiset.count_singleton]
    by_cases hvp : v = p
    · subst hvp
      have hs1A : s1 ∈ (keysOf cur).toFinset.filter (fun k => alookup cur k = some v) := by
        rw [Finset.mem_filter, List.mem_toFinset]
        exact ⟨by rw [← alookup_isSome_iff_mem, hc1]; rfl, hc1⟩
      have hBA : (keysOf (boardStateOf fen)).toFinset.filter
            (fun k => alookup cur k = some v ∧ alookup (boardStateOf fen) k = some v.pieceType)
          = ((keysOf cur).toFinset.filter (fun k => alookup cur k = some v)).erase s1 := by
        apply Finset.ext
        intro k
        rw [Finset.mem_filter, Finset.mem_erase, Finset.mem_filter,
          List.mem_toFinset, List.mem_toFinset]
        constructor
        · rintro ⟨hkb, hkc, hkt⟩
          refine ⟨?_, ?_, hkc⟩
          · intro hcon
            rw [hcon] at hkb
            exact (alookup_eq_none_iff _ _).mp hb1 hkb
          · rw [← alookup_isSome_iff_mem, hkc]
            rfl
        · rintro ⟨hne1, hkcur, hkc⟩
          have hne2 : k ≠ s2 := by
            intro hcon
            rw [hcon, hc2] at hkc
            injection hkc with h
            exact hpq h.symm
          have hkt := descMatch_some_left
            (hrest k (List.mem_append.mpr (Or.inl hkcur)) hne1 hne2) hkc
          refine ⟨?_, hkc, hkt⟩
          rw [← alookup_isSome_iff_mem, hkt]
          rfl
      rw [hBA, Finset.card_erase_of_mem hs1A]
      have hpos : 1 ≤ ((keysOf cur).toFinset.filter
          (fun k => alookup cur k = some v)).card :=
        Finset.card_pos.mpr ⟨s1, hs1A⟩
      have hone : (if v = v then 1 else 0) = 1 := if_pos rfl
      have hzero : (if v = q then 1 else 0) = 0 := if_neg (by
        intro hcon
        exact hpq hcon)
      rw [hone, hzero]
      omega
    · by_cases hvq : v = q
      · subst hvq
        have hs2A : s2 ∈ (keysOf cur).toFinset.filter
            (fun k => alookup cur k = some v) := by
          rw [Finset.mem_filter, List.mem_toFinset]
          exact ⟨by rw [← alookup_isSome_iff_mem, hc2]; rfl, hc2⟩
        have hBA : (keysOf (boardStateOf fen)).toFinset.filter
              (fun k => alookup cur k = some v
                ∧ alookup (boardStateOf fen) k = some v.pieceType)
            = ((keysOf cur).toFinset.filter (fun k => alookup cur k = some v)).erase s2 := by
          apply Finset.ext
          intro k
          rw [Finset.mem_filter, Finset.mem_erase, Finset.mem_filter,
            List.mem_toFinset, List.mem_toFinset]
          constructor
          · rintro ⟨hkb, hkc, hkt⟩
            refine ⟨?_, ?_, hkc⟩
            · intro hcon
              rw [hcon, hb2] at hkt
              injection hkt with h
              apply hdd
              rw [← hqd, h]
            · rw [← alookup_isSome_iff_mem, hkc]
              rfl
          · rintro ⟨hne2, hkcur, hkc⟩
            have hne1 : k ≠ s1 := by
              intro hcon
              rw [hcon, hc1] at hkc
              injection hkc with h
              exact hpq h
            have hkt := descMatch_some_left
              (hrest k (List.mem_append.mpr (Or.inl hkcur)) hne1 hne2) hkc
            refine ⟨?_, hkc, hkt⟩
            rw [← alookup_isSome_iff_mem, hkt]
            rfl
        rw [hBA, Finset.card_erase_of_mem hs2A]
        have hpos : 1 ≤ ((keysOf cur).toFinset.filter
            (fun k => alookup cur k = some v)).card :=
          Finset.card_pos.mpr ⟨s2, hs2A⟩
        have hone : (if v = v then 1 else 0) = 1 := if_pos rfl
        have hzero : (if v = p then 1 else 0) = 0 := if_neg (by
          intro hcon
          exact hpq hcon.symm)
        rw [hone, hzero]
        omega
      · have hBA : (keysOf (boardStateOf fen)).toFinset.filter
              (fun k => alookup cur k = some v
                ∧ alookup (boardStateOf fen) k = some v.pieceType)
            = (keysOf cur).toFinset.filter (fun k => alookup cur k = some v) := by
          apply Finset.ext
          intro k
          rw [Finset.mem_filter, Finset.mem_filter, List.mem_toFinset, List.mem_toFinset]
          constructor
          · rintro ⟨hkb, hkc, hkt⟩
            refine ⟨?_, hkc⟩
            rw [← alookup_isSome_iff_mem, hkc]
            rfl
          · rintro ⟨hkcur, hkc⟩
            have hne1 : k ≠ s1 := by
              intro hcon
              rw [hcon, hc1] at hkc
              injection hkc with h
              exact hvp h.symm
            have hne2 : k ≠ s2 := by
              intro hcon
              rw [hcon, hc2] at hkc
              injection hkc with h
              exact hvq h.symm
            have hkt := descMatch_some_left
              (hrest k (List.mem_append.mpr (Or.inl hkcur)) hne1 hne2) hkc
            refine ⟨?_, hkc, hkt⟩
            rw [← alookup_isSome_iff_mem, hkt]
            rfl
        rw [hBA, if_neg hvq, if_neg hvp]
        omega
  have hfilter : (poolMS (pass1Of fen cur).pool).filter (fun r => r.pieceType = d) = {p} := by
    rw [hpool, Multiset.filter_cons, Multiset.filter_singleton]
    have h1 : (if p.pieceType = d then ({p} : Multiset Piece) else 0) = {p} := if_pos hpd
    have h2 : (if q.pieceType = d then ({q} : Multiset Piece) else ∅) = 0 := by
      rw [if_neg (by
        rw [hqd]
        exact hdd)]
      rfl
    rw [h1, h2, add_zero]
  obtain ⟨hcr, hrel, hdes⟩ := sync_single_pending fen cur hostOk nid s2 d p hpend hfilter
  rw [hpool, Multiset.erase_cons_head] at hdes
  exact ⟨hcr, Multiset.coe_eq_singleton.mp hdes, hrel⟩

/-- Witness for C3: the pawn move e2-e4 from a one-pawn position. -/
theorem syncBoard_simple_move_witness :
    (alookup ([("e2", (⟨0, 'P'⟩ : Piece))] : PieceMap) "e2" = some ⟨0, 'P'⟩
      ∧ alookup (boardStateOf "8/8/8/8/4P3/8/8/8 b - - 0 1") "e4" = some 'P'
      ∧ alookup (boardStateOf "8/8/8/8/4P3/8/8/8 b - - 0 1") "e2" = none) ∧
    ((syncBoard "8/8/8/8/4P3/8/8/8 b - - 0 1" [("e2", (⟨0, 'P'⟩ : Piece))]
        (fun _ _ => true) 1).created = [] ∧
      (syncBoard "8/8/8/8/4P3/8/8/8 b - - 0 1" [("e2", (⟨0, 'P'⟩ : Piece))]
        (fun _ _ => true) 1).destroyed = [] ∧
      (syncBoard "8/8/8/8/4P3/8/8/8 b - - 0 1" [("e2", (⟨0, 'P'⟩ : Piece))]
        (fun _ _ => true) 1).relocated = [⟨0, 'P'⟩] ∧
      (syncBoard "8/8/8/8/4P3/8/8/8 b - - 0 1" [("e2", (⟨0, 'P'⟩ : Piece))]
        (fun _ _ => true) 1).relocated.length ≤ 2) :=
  ⟨by decide,
    syncBoard_simple_move "8/8/8/8/4P3/8/8/8 b - - 0 1" [("e2", ⟨0, 'P'⟩)]
      (fun _ _ => true) 1 "e2" "e4" 'P' ⟨0, 'P'⟩ (by decide) (by decide) rfl
      (by decide) (by decide) (by decide) (by decide)⟩

/-- Witness for C4: a rook on a1 capturing a queen on d1. -/
theorem syncBoard_capture_witness :
    (alookup ([("a1", (⟨0, 'R'⟩ : Piece)), ("d1", (⟨1, 'q'⟩ : Piece))] : PieceMap) "d1"
        = some ⟨1, 'q'⟩
      ∧ alookup (boardStateOf "8/8/8/8/8/8/8/3R4 b - - 0 1") "d1" = some 'R') ∧
    ((syncBoard "8/8/8/8/8/8/8/3R4 b - - 0 1"
        [("a1", (⟨0, 'R'⟩ : Piece)), ("d1", (⟨1, 'q'⟩ : Piece))]
        (fun _ _ => true) 2).created = [] ∧
      (syncBoard "8/8/8/8/8/8/8/3R4 b - - 0 1"
        [("a1", (⟨0, 'R'⟩ : Piece)), ("d1", (⟨1, 'q'⟩ : Piece))]
        (fun _ _ => true) 2).destroyed = [⟨1, 'q'⟩] ∧
      (syncBoard "8/8/8/8/8/8/8/3R4 b - - 0 1"
        [("a1", (⟨0, 'R'⟩ : Piece)), ("d1", (⟨1, 'q'⟩ : Piece))]
        (fun _ _ => true) 2).relocated = [⟨0, 'R'⟩]) :=
  ⟨by decide,
    syncBoard_capture "8/8/8/8/8/8/8/3R4 b - - 0 1"
      [("a1", ⟨0, 'R'⟩), ("d1", ⟨1, 'q'⟩)] (fun _ _ => true) 2 "a1" "d1" 'R' 'q'
      ⟨0, 'R'⟩ ⟨1, 'q'⟩ (by decide) (by decide) rfl (by decide) rfl (by decide)
      (by decide) (by decide) (by decide)⟩

-- ### Injectivity of the rebuilt piece map (C8)

theorem values_filterMap_lock (cur : PieceMap) (entries : List (String × Char)) :
    (entries.filterMap (lockEntry cur)).map Prod.snd
      = entries.filterMap (lockedPiece cur) := by
  induction entries with
  | nil => rfl
  | cons e rest ih =>
    rw [List.filterMap_cons, List.filterMap_cons]
    rcases hl : lockedPiece cur e with _ | p
    · simp only [lockEntry, hl, Option.map_none']
      exact ih
    · simp only [lockEntry, hl, Option.map_some']
      rw [List.map_cons, ih]

/-- Lookup-level injectivity of a map whose keys and values are both
duplicate-free. -/
theorem alookup_inj_of_nodup {cur : PieceMap}
    (hvals : (cur.map Prod.snd).Nodup) :
    ∀ k1 k2 v, alookup cur k1 = some v → alookup cur k2 = some v → k1 = k2 := by
  intro k1 k2 v h1 h2
  have hm1 := alookup_mem h1
  have hm2 := alookup_mem h2
  have := List.inj_on_of_nodup_map hvals hm1 hm2 rfl
  injection this

/-- The locked objects are pairwise distinct when the current map is
injective. -/
theorem locked_nodup (cur : PieceMap) (entries : List (String × Char))
    (hnd : (keysOf entries).Nodup)
    (hinj : ∀ k1 k2 v, alookup cur k1 = some v → alookup cur k2 = some v → k1 = k2) :
    (entries.filterMap (lockedPiece cur)).Nodup := by
  induction entries with
  | nil => exact List.nodup_nil
  | cons e rest ih =>
    rw [keysOf_cons, List.nodup_cons] at hnd
    rw [List.filterMap_cons]
    rcases hl : lockedPiece cur e with _ | p
    · exact ih hnd.2
    · refine List.nodup_cons.mpr ⟨?_, ih hnd.2⟩
      intro hmem
      rcases List.mem_filterMap.mp hmem with ⟨e', he', hl'⟩
      have h1 := (lockedPiece_type hl).1
      have h2 := (lockedPiece_type hl').1
      have := hinj e.1 e'.1 p h1 h2
      exact hnd.1 (this ▸ (mem_keysOf_iff rest e'.1).mpr ⟨e'.2, he'⟩)

/-- The squares still pending after Pass 1 have no entry in the Pass 1
map. -/
theorem pass1Of_pending_next_none (fen : String) (cur : PieceMap) :
    ∀ e ∈ (pass1Of fen cur).pending, alookup (pass1Of fen cur).next e.1 = none := by
  have hbnd := boardStateOf_keys_nodup fen
  have hnext : (pass1Of fen cur).next = (boardStateOf fen).filterMap (lockEntry cur) := by
    have := pass1Run_next cur (boardStateOf fen) ⟨[], [], buildPool cur⟩ hbnd
      (by intro k hk; simp [keysOf])
    simpa [pass1Of] using this
  have hpend : (pass1Of fen cur).pending
      = (boardStateOf fen).filter (fun e => (lockedPiece cur e).isNone) := by
    have := pass1Run_pending cur (boardStateOf fen) ⟨[], [], buildPool cur⟩
    simpa [pass1Of] using this
  intro e he
  rw [hpend, List.mem_filter] at he
  obtain ⟨heb, hiso⟩ := he
  rw [hnext, alookup_eq_none_iff]
  intro hkey
  rcases mem_keysOf_filterMap_lock hkey with ⟨c', p, hmem, hlock⟩
  have hbe : alookup (boardStateOf fen) e.1 = some e.2 := mem_alookup hbnd heb
  have hce : c' = e.2 := alookup_unique_of_nodup hbnd hmem (by
    have : (e.1, e.2) = e := rfl
    rw [this]
    exact heb)
  rw [hce] at hlock
  have he2 : (e.1, e.2) = e := rfl
  rw [he2] at hlock
  rw [hlock] at hiso
  simp at hiso

/-- Pass 2 keeps the map's values pairwise distinct, given a duplicate-free
pool disjoint from the map, and a fresh id counter. -/
theorem pass2Run_inj (hostOk : String → Char → Bool) (pending : List (String × Char)) :
    ∀ acc : Pass2Out,
    (keysOf pending).Nodup →
    (∀ k ∈ keysOf pending, k ∉ keysOf acc.next) →
    (keysOf acc.next).Nodup →
    (acc.next.map Prod.snd).Nodup →
    PoolWF acc.pool →
    (poolMS acc.pool).Nodup →
    (∀ p ∈ poolMS acc.pool, p ∉ acc.next.map Prod.snd) →
    (∀ p ∈ acc.next.map Prod.snd, p.id < acc.nextId) →
    (∀ p ∈ poolMS acc.pool, p.id < acc.nextId) →
    ((pass2Run hostOk pending acc).next.map Prod.snd).Nodup := by
  induction pending with
  | nil => intro acc _ _ _ hvals _ _ _ _ _; exact hvals
  | cons e rest ih =>
    intro acc hnd hdk hknd hvals hwf hpnd hdisj hbn hbp
    rw [keysOf_cons, List.nodup_cons] at hnd
    rw [pass2Run_cons]
    have he1 : e.1 ∉ keysOf acc.next := hdk e.1 (by rw [keysOf_cons]; exact List.mem_cons_self _ _)
    rcases hp : poolPop acc.pool e.2 with _ | pr
    · rcases hcr : createPiece hostOk e.2 e.1 acc.nextId with _ | q
      · rw [pass2Step_skip hp hcr]
        exact ih acc hnd.2
          (fun k hk => hdk k (by rw [keysOf_cons]; exact List.mem_cons_of_mem _ hk))
          hknd hvals hwf hpnd hdisj hbn hbp
      · rw [pass2Step_create hp hcr]
        have hq : q = ⟨acc.nextId, e.2⟩ := by
          rw [createPiece_eq] at hcr
          by_cases hok : createOkB hostOk e.1 e.2
          · rw [if_pos hok] at hcr
            injection hcr with h
            exact h.symm
          · rw [if_neg hok] at hcr
            exact Option.noConfusion hcr
        have hup : upsert acc.next e.1 q = acc.next ++ [(e.1, q)] :=
          upsert_of_not_mem acc.next e.1 q he1
        have hqid : q.id = acc.nextId := by rw [hq]
        have hqnotin : q ∉ acc.next.map Prod.snd := by
          intro hmem
          have := hbn q hmem
          omega
        have hvals' : ((acc.next ++ [(e.1, q)]).map Prod.snd).Nodup := by
          rw [List.map_append]
          rw [List.nodup_append]
          refine ⟨hvals, List.nodup_singleton _, ?_⟩
          intro a ha hb
          simp at hb
          subst hb
          exact hqnotin ha
        refine ih ⟨upsert acc.next e.1 q, acc.pool, acc.created ++ [q], acc.relocated,
            acc.nextId + 1⟩ hnd.2 ?_ ?_ ?_ hwf hpnd ?_ ?_ ?_
        · intro k hk
          simp only [hup, keysOf_append]
          intro hmem
          rcases List.mem_append.mp hmem with h1 | h1
          · exact hdk k (by rw [keysOf_cons]; exact List.mem_cons_of_mem _ hk) h1
          · have : k = e.1 := by simpa [keysOf] using h1
            exact hnd.1 (this ▸ hk)
        · exact keysOf_upsert_nodup acc.next e.1 q hknd
        · simpa only [hup] using hvals'
        · intro r hr
          simp only [hup]
          have hr1 := hdisj r hr
          have hr2 : r ≠ q := by
            intro hcon
            have := hbp r hr
            rw [hcon, hqid] at this
            omega
          rw [List.map_append]
          intro hmem
          rcases List.mem_append.mp hmem with h1 | h1
          · exact hr1 h1
          · simp at h1
            exact hr2 h1
        · intro r hr
          show r.id < acc.nextId + 1
          simp only [hup, List.map_append] at hr
          rcases List.mem_append.mp hr with h1 | h1
          · have := hbn r h1
            omega
          · simp at h1
            subst h1
            rw [hqid]
            omega
        · intro r hr
          show r.id < acc.nextId + 1
          have := hbp r hr
          omega
    · rcases pr with ⟨p, pool'⟩
      rw [pass2Step_pop hp]
      have hspec := poolPop_some hwf hp
      have hup : upsert acc.next e.1 p = acc.next ++ [(e.1, p)] :=
        upsert_of_not_mem acc.next e.1 p he1
      have hpnotin : p ∉ acc.next.map Prod.snd := hdisj p hspec.2.1
      have hvals' : ((acc.next ++ [(e.1, p)]).map Prod.snd).Nodup := by
        rw [List.map_append, List.nodup_append]
        refine ⟨hvals, List.nodup_singleton _, ?_⟩
        intro a ha hb
        simp at hb
        subst hb
        exact hpnotin ha
      have hple : poolMS pool' ≤ poolMS acc.pool := by
        rw [hspec.2.2.2]
        exact Multiset.erase_le p (poolMS acc.pool)
      refine ih ⟨upsert acc.next e.1 p, pool', acc.created, acc.relocated ++ [p],
          acc.nextId⟩ hnd.2 ?_ ?_ ?_ hspec.2.2.1 ?_ ?_ ?_ ?_
      · intro k hk
        simp only [hup, keysOf_append]
        intro hmem
        rcases List.mem_append.mp hmem with h1 | h1
        · exact hdk k (by rw [keysOf_cons]; exact List.mem_cons_of_mem _ hk) h1
        · have : k = e.1 := by simpa [keysOf] using h1
          exact hnd.1 (this ▸ hk)
      · exact keysOf_upsert_nodup acc.next e.1 p hknd
      · simpa only [hup] using hvals'
      · exact Multiset.nodup_of_le hple hpnd
      · intro r hr
        have hrp : r ∈ poolMS acc.pool := Multiset.mem_of_le hple hr
        have hr2 : r ≠ p := by
          intro hcon
          rw [hspec.2.2.2] at hr
          rw [hcon] at hr
          exact (Multiset.Nodup.not_mem_erase hpnd) hr
        simp only [hup, List.map_append]
        intro hmem
        rcases List.mem_append.mp hmem with h1 | h1
        · exact hdisj r hrp h1
        · simp at h1
          exact hr2 h1
      · intro r hr
        simp only [hup, List.map_append] at hr
        rcases List.mem_append.mp hr with h1 | h1
        · exact hbn r h1
        · simp at h1
          subst h1
          exact hbp r hspec.2.1
      · intro r hr
        exact hbp r (Multiset.mem_of_le hple hr)

/-- C8: rebuilding the piece map preserves injectivity — if the current map
sends distinct squares to distinct objects, no object ends up stored under
two squares of the new map (Pass 1 removes a locked object from the pool,
and Pass 2 pops each pooled object at most once). -/
theorem syncBoard_injective (fen : String) (cur : PieceMap)
    (hostOk : String → Char → Bool) (nid : Nat)
    (hkeys : (keysOf cur).Nodup) (hvals : (cur.map Prod.snd).Nodup)
    (hid : ∀ p ∈ cur.map Prod.snd, p.id < nid) :
    ∀ s1 s2 p, s1 ≠ s2 →
      alookup (syncBoard fen cur hostOk nid).pieces s1 = some p →
      alookup (syncBoard fen cur hostOk nid).pieces s2 = some p → False := by
  have hbnd := boardStateOf_keys_nodup fen
  have hinj := alookup_inj_of_nodup hvals
  have hnext : (pass1Of fen cur).next = (boardStateOf fen).filterMap (lockEntry cur) := by
    have := pass1Run_next cur (boardStateOf fen) ⟨[], [], buildPool cur⟩ hbnd
      (by intro k hk; simp [keysOf])
    simpa [pass1Of] using this
  have hpend : (pass1Of fen cur).pending
      = (boardStateOf fen).filter (fun e => (lockedPiece cur e).isNone) := by
    have := pass1Run_pending cur (boardStateOf fen) ⟨[], [], buildPool cur⟩
    simpa [pass1Of] using this
  have hpsub : (pass1Of fen cur).pending.Sublist (boardStateOf fen) := by
    rw [hpend]
    exact List.filter_sublist _
  have hpknd : (keysOf (pass1Of fen cur).pending).Nodup :=
    (hpsub.map Prod.fst).nodup hbnd
  have hnvals : ((pass1Of fen cur).next.map Prod.snd).Nodup := by
    rw [hnext, values_filterMap_lock]
    exact locked_nodup cur (boardStateOf fen) hbnd hinj
  have hnknd : (keysOf (pass1Of fen cur).next).Nodup := by
    rw [hnext]
    exact (keysOf_filterMap_lock_sublist cur (boardStateOf fen)).nodup hbnd
  have hwf1 : PoolWF (pass1Of fen cur).pool :=
    pass1Run_pool_wf cur (boardStateOf fen) ⟨[], [], buildPool cur⟩ (buildPool_spec cur).1
  have hpoolsub := pass1_pool_values_sub fen cur hkeys
  have hple : poolMS (pass1Of fen cur).pool ≤ (cur.map Prod.snd : Multiset Piece) := by
    rw [hpoolsub]
    exact tsub_le_self
  have hpmnd : (poolMS (pass1Of fen cur).pool).Nodup :=
    Multiset.nodup_of_le hple (Multiset.coe_nodup.mpr hvals)
  have hdisj : ∀ p ∈ poolMS (pass1Of fen cur).pool,
      p ∉ (pass1Of fen cur).next.map Prod.snd := by
    intro p hp hmem
    rw [hnext, values_filterMap_lock] at hmem
    have hcount1 : 1 ≤ Multiset.count p
        (((boardStateOf fen).filterMap (lockedPiece cur) : List Piece) : Multiset Piece) := by
      rw [Multiset.one_le_count_iff_mem]
      simpa using hmem
    have hcount2 : Multiset.count p ((cur.map Prod.snd : List Piece) : Multiset Piece) ≤ 1 :=
      Multiset.nodup_iff_count_le_one.mp (Multiset.coe_nodup.mpr hvals) p
    have hcount3 : 1 ≤ Multiset.count p (poolMS (pass1Of fen cur).pool) := by
      rw [Multiset.one_le_count_iff_mem]
      exact hp
    rw [hpoolsub, Multiset.count_sub] at hcount3
    omega
  have hbound_next : ∀ p ∈ (pass1Of fen cur).next.map Prod.snd, p.id < nid := by
    intro p hp
    rw [hnext, values_filterMap_lock] at hp
    rcases List.mem_filterMap.mp hp with ⟨e, _, hl⟩
    have := (lockedPiece_type hl).1
    have hmem := alookup_mem this
    exact hid p (List.mem_map.mpr ⟨(e.1, p), hmem, rfl⟩)
  have hbound_pool : ∀ p ∈ poolMS (pass1Of fen cur).pool, p.id < nid := by
    intro p hp
    have : p ∈ (cur.map Prod.snd : Multiset Piece) := Multiset.mem_of_le hple hp
    exact hid p (by simpa using this)
  have hdk : ∀ k ∈ keysOf (pass1Of fen cur).pending,
      k ∉ keysOf (pass1Of fen cur).next := by
    intro k hk
    rcases (mem_keysOf_iff _ _).mp hk with ⟨c, hc⟩
    have := pass1Of_pending_next_none fen cur (k, c) hc
    rw [alookup_eq_none_iff] at this
    exact this
  have hfin : ((syncBoard fen cur hostOk nid).pieces.map Prod.snd).Nodup := by
    rw [syncBoard_eq]
    exact pass2Run_inj hostOk (pass1Of fen cur).pending
      ⟨(pass1Of fen cur).next, (pass1Of fen cur).pool, [], [], nid⟩
      hpknd hdk hnknd hnvals hwf1 hpmnd hdisj hbound_next hbound_pool
  intro s1 s2 p hne h1 h2
  have hm1 := alookup_mem h1
  have hm2 := alookup_mem h2
  have := List.inj_on_of_nodup_map hfin hm1 hm2 rfl
  exact hne (by injection this)

/-- Witness for C8: a single pawn map with a fresh id counter. -/
theorem syncBoard_injective_witness :
    ((keysOf ([("e2", (⟨0, 'P'⟩ : Piece))] : PieceMap)).Nodup
      ∧ (([("e2", (⟨0, 'P'⟩ : Piece))] : PieceMap).map Prod.snd).Nodup
      ∧ ∀ p ∈ ([("e2", (⟨0, 'P'⟩ : Piece))] : PieceMap).map Prod.snd, p.id < 1) ∧
    (∀ s1 s2 p, s1 ≠ s2 →
      alookup (syncBoard startFen [("e2", (⟨0, 'P'⟩ : Piece))] (fun _ _ => true) 1).pieces s1
        = some p →
      alookup (syncBoard startFen [("e2", (⟨0, 'P'⟩ : Piece))] (fun _ _ => true) 1).pieces s2
        = some p → False) :=
  ⟨⟨by decide, by decide, by decide⟩,
    syncBoard_injective startFen [("e2", ⟨0, 'P'⟩)] (fun _ _ => true) 1
      (by decide) (by decide) (by decide)⟩

-- ### Square-to-3D-position mapping (embed.js lines 130-135, 282-310)

/-- `state.tileSize` (embed.js line 133). -/
def tileSizeQ : ℚ := 0.5

/-- `state.boardSize` (embed.js line 133). -/
def boardSizeQ : ℚ := 8

/-- `state.offset = (state.boardSize * state.tileSize) / 2 - (state.tileSize / 2)`
(embed.js line 135). -/
def offsetQ : ℚ := (boardSizeQ * tileSizeQ) / 2 - tileSizeQ / 2

/-- A 3D vector with exact rational coordinates (`BS.Vector3`). -/
structure Vec3Q where
  x : ℚ
  y : ℚ
  z : ℚ
deriving DecidableEq, Repr

/-- JavaScript `Array.prototype.indexOf`: first index of the character, or
-1. -/
def indexOfFrom (ch : Char) : List Char → Int
  | [] => -1
  | c :: rest =>
    if c = ch then 0
    else
      match indexOfFrom ch rest with
      | -1 => -1
      | r => r + 1

/-- `parseInt` of a single character: its value for a digit, NaN (here
`none`) otherwise. -/
def parseDigitChar (c : Char) : Option ℚ :=
  if '0' ≤ c ∧ c ≤ '9' then some ((c.toNat - '0'.toNat : ℕ) : ℚ) else none

/-- `getSquarePos(squareId)` (embed.js lines 282-290): planar position of a
square plus the base height 0.15. A NaN-poisoned result (rank character not
a digit, or missing) is modelled as `none`. -/
def getSquarePos (squareId : String) : Option Vec3Q :=
  let xIndex : Int :=
    match squareId.toList.get? 0 with
    | some ch => indexOfFrom ch lettersList
    | none => -1
  match (squareId.toList.get? 1).bind parseDigitChar with
  | some rank =>
    some ⟨(xIndex : ℚ) * tileSizeQ - offsetQ, 0.15, -((rank - 1) * tileSizeQ) + offsetQ⟩
  | none => none

/-- `Y_ADJUSTMENTS` (embed.js lines 298-304). -/
def Y_ADJUSTMENTS : List (Char × ℚ) :=
  [('r', -0.01), ('n', 0.04), ('b', 0.03), ('q', 0.1), ('k', 0.11)]

/-- `getPiecePos(squareId, char)` (embed.js lines 293-310): the square
position with the per-type height added when the lowercased type has a
truthy (present, non-zero) adjustment. -/
def getPiecePos (squareId : String) (ch : Char) : Option Vec3Q :=
  (getSquarePos squareId).map (fun pos =>
    match alookup Y_ADJUSTMENTS ch.toLower with
    | some adj => if adj ≠ 0 then { pos with y := pos.y + adj } else pos
    | none => pos)

/-- The twelve piece-descriptor characters (case encodes colour). -/
def pieceDescChars : List Char :=
  ['p', 'r', 'n', 'b', 'q', 'k', 'P', 'R', 'N', 'B', 'Q', 'K']

/-- The spec's per-type vertical adjustment: 0 for pawns, the fixed
per-type constant otherwise. -/
def specYAdj (c : Char) : ℚ :=
  if c.toLower = 'p' then 0 else (alookup Y_ADJUSTMENTS c.toLower).getD 0

/-- The vertical adjustment as the code computes it (JavaScript truthiness:
a present but zero entry would be skipped). -/
def yAdjCode (c : Char) : ℚ :=
  match alookup Y_ADJUSTMENTS c.toLower with
  | some adj => if adj ≠ 0 then adj else 0
  | none => 0

theorem getPiecePos_as_adj (squareId : String) (c : Char) (pos : Vec3Q)
    (h : getSquarePos squareId = some pos) :
    getPiecePos squareId c = some ⟨pos.x, pos.y + yAdjCode c, pos.z⟩ := by
  unfold getPiecePos yAdjCode
  rw [h]
  rcases halk : alookup Y_ADJUSTMENTS c.toLower with _ | adj
  · simp
  · by_cases hz : adj ≠ 0
    · simp [hz]
    · simp [hz]

theorem getSquarePos_formula :
    ∀ i : ℕ, i < 8 → ∀ r : ℕ, r < 8 →
      getSquarePos (String.mk [lettersList.getD i ' ', Char.ofNat ('1'.toNat + r)])
        = some ⟨(i : ℚ) * tileSizeQ - offsetQ, 0.15,
                -((((r : ℚ) + 1) - 1) * tileSizeQ) + offsetQ⟩ := by
  intro i hi r hr
  interval_cases i <;> interval_cases r <;>
    simp [getSquarePos, lettersList, indexOfFrom, parseDigitChar] <;>
    norm_num [tileSizeQ, offsetQ, boardSizeQ]

theorem yAdj_cases : ∀ c ∈ pieceDescChars, yAdjCode c = specYAdj c := by
  intro c hc
  fin_cases hc <;> simp [yAdjCode, specYAdj, Y_ADJUSTMENTS, alookup] <;> norm_num

/-- C9: for every square identifier (file a-h as index `i`, rank `r + 1`)
and every piece descriptor character, the computed piece position is
`(fileIndex * tileSize - offset, 0.15 + per-type adjustment,
-((rank - 1) * tileSize) + offset)`, the adjustment being 0 for pawns and
the fixed per-type constant otherwise, with
`offset = (boardSize * tileSize)/2 - tileSize/2`. -/
theorem getPiecePos_formula :
    ∀ i : ℕ, i < 8 → ∀ r : ℕ, r < 8 → ∀ c ∈ pieceDescChars,
      getPiecePos (String.mk [lettersList.getD i ' ', Char.ofNat ('1'.toNat + r)]) c
        = some ⟨(i : ℚ) * tileSizeQ - offsetQ,
                0.15 + specYAdj c,
                -((((r : ℚ) + 1) - 1) * tileSizeQ) + offsetQ⟩ := by
  intro i hi r hr c hc
  rw [getPiecePos_as_adj _ c _ (getSquarePos_formula i hi r hr), yAdj_cases c hc]

/-- Witness for C9: the white pawn on e2 (file index 4, rank 2). -/
theorem getPiecePos_formula_witness :
    ((4 : ℕ) < 8 ∧ (1 : ℕ) < 8 ∧ 'P' ∈ pieceDescChars) ∧
    getPiecePos (String.mk [lettersList.getD 4 ' ', Char.ofNat ('1'.toNat + 1)]) 'P'
      = some ⟨(4 : ℚ) * tileSizeQ - offsetQ, 0.15 + specYAdj 'P',
              -((((1 : ℚ) + 1) - 1) * tileSizeQ) + offsetQ⟩ :=
  ⟨⟨by decide, by decide, by decide⟩,
    getPiecePos_formula 4 (by decide) 1 (by decide) 'P' (by decide)⟩

-- ### The client: colours, tiles, selection, shared-state handling

/-- Colour constants (embed.js lines 118-121). -/
def cWhite : String := "#EEEEEE"

def cBlack : String := "#333333"

def cSelected : String := "#76F250"

def cValid : String := "#50ABF2"

/-- The external rules engine (chess.js), abstracted as a function of the
current FEN position: `tryMove pos f t promo` is `chess.move` (the new FEN
on success), `get pos sq` is `chess.get` occupancy, `movesOf pos sq` lists
the `to` squares of the verbose `chess.moves({square})`, and `validFen`
decides whether `chess.load` succeeds. -/
structure RulesEngine where
  validFen : String → Bool
  tryMove : String → String → String → String → Option String
  get : String → String → Bool
  movesOf : String → String → List String

/-- The per-instance shared key `'chess_game_' + config.instance`
(embed.js lines 202, 530, 574). -/
def stateKey (inst : String) : String := "chess_game_" ++ inst

/-- The traversal order of the tile double loop (`x` outer 0-7, `z` inner
0-7; generateTiles lines 254-272 and clearSelection lines 549-555). -/
def tileEntries : List (Nat × Nat) :=
  (List.range 8).flatMap (fun x => (List.range 8).map (fun z => (x, z)))

/-- The square identifier of one loop step: file letter then rank `z+1`. -/
def tileSquareId (e : Nat × Nat) : String := squareIdOf e.1 ((e.2 : Int) + 1)

/-- The identifiers of the 64 generated tiles (`state.tiles` keys). -/
def tileSquares : List String := tileEntries.map tileSquareId

/-- A tile's base colour: `(x + z) % 2 === 1` is white. -/
def tileBase (e : Nat × Nat) : String := if (e.1 + e.2) % 2 = 1 then cWhite else cBlack

/-- The client-side state the claims are about, with observation logs: the
records published to the shared store, the strings handed to the FEN
loader, the number of `syncBoard()` invocations, and the diagnostic log.
A published record `(key, fen)` abstracts `SetPublicSpaceProps` of the
serialized `{fen}` object under `key`. -/
structure Client where
  instanceId : String
  pos : String
  pieces : PieceMap
  nextId : Nat
  selectedSquare : Option String
  tileColors : String → String
  published : List (String × String)
  loaderCalls : List String
  syncCalls : Nat
  log : List String

/-- `ChessGame.loadFen` (embed.js lines 90-98): try `chess.load(fen)`; on
success return true with the new position; on failure log a diagnostic and
return false, the position unchanged. -/
def loadFenC (eng : RulesEngine) (c : Client) (fen : String) : Bool × Client :=
  if eng.validFen fen then
    (true, { c with pos := fen, loaderCalls := c.loaderCalls ++ [fen] })
  else
    (false, { c with loaderCalls := c.loaderCalls ++ [fen],
                     log := c.log ++ ["Failed to load FEN: " ++ fen] })

/-- `ChessGame.reset` (embed.js line 89). -/
def resetC (c : Client) : Client := { c with pos := startFen }

/-- One `syncBoard()` call as it affects client state (host-side creations
assumed to succeed), with its invocation counted. -/
def syncBoardC (c : Client) : Client :=
  let r := syncBoard c.pos c.pieces (fun _ _ => true) c.nextId
  { c with pieces := r.pieces, nextId := r.nextId, syncCalls := c.syncCalls + 1 }

/-- `setMaterialColor(state.tiles[sq], col)` guarded by tile existence
(`if (state.tiles[sq])`): only the 64 generated tiles can change colour.
The stored value is the hex string passed in. -/
def setTileColor (tc : String → String) (sq col : String) : String → String :=
  if sq ∈ tileSquares then (fun s => if s = sq then col else tc s) else tc

/-- `clearSelection()` (embed.js lines 546-556): deselect and repaint every
tile with its base colour. -/
def clearSelectionC (c : Client) : Client :=
  { c with selectedSquare := none,
           tileColors := tileEntries.foldl
             (fun tc e => setTileColor tc (tileSquareId e) (tileBase e)) c.tileColors }

/-- The `Idle` branch of `handleSquareClick` (embed.js lines 514-522):
select an occupied square, colour it, and colour its legal destinations. -/
def selectSquareC (eng : RulesEngine) (c : Client) (squareId : String) : Client :=
  if eng.get c.pos squareId then
    let c1 := { c with selectedSquare := some squareId,
                       tileColors := setTileColor c.tileColors squareId cSelected }
    { c1 with tileColors := ((eng.movesOf c1.pos squareId).foldl
        (fun tc m => setTileColor tc m cValid) c1.tileColors) }
  else c

/-- `handleSquareClick(squareId)` (embed.js lines 512-544). The recursive
re-selection call in the failure branch runs with `state.selectedSquare`
just cleared, so it is exactly the `Idle` branch, guarded — as in the
source — by the occupancy check. -/
def handleSquareClick (eng : RulesEngine) (c : Client) (squareId : String) : Client :=
  match c.selectedSquare with
  | none => selectSquareC eng c squareId
  | some sel =>
    match eng.tryMove c.pos sel squareId "q" with
    | some newPos =>
      let c1 := { c with pos := newPos }
      let c2 := { c1 with published := c1.published ++ [(stateKey c1.instanceId, newPos)] }
      let c3 := syncBoardC c2
      clearSelectionC c3
    | none =>
      let c1 := clearSelectionC c
      if eng.get c1.pos squareId then selectSquareC eng c1 squareId else c1

/-- A parsed Shared Game-State Record: a JSON parse failure, or an object
whose `fen` field may be absent. -/
inductive SharedRecord where
  | parseError : SharedRecord
  | record : Option String → SharedRecord

/-- The `space-state-changed` handler body (embed.js lines 584-599):
special-case the `"reset"` sentinel (reset, reconcile, clear selection),
else load any truthy `fen` field and reconcile. -/
def handleSpaceState (eng : RulesEngine) (c : Client) : SharedRecord → Client
  | .parseError => c
  | .record none => c
  | .record (some f) =>
    if f = "reset" then
      clearSelectionC (syncBoardC (resetC c))
    else if f ≠ "" then
      syncBoardC (loadFenC eng c f).2
    else c

/-- The one-time initial read (embed.js lines 603-616): any truthy `fen`
field — with no `"reset"` special case — is passed to the FEN loader, and
the board is reconciled. -/
def handleInitialState (eng : RulesEngine) (c : Client) : SharedRecord → Client
  | .parseError => c
  | .record none => c
  | .record (some f) =>
    if f ≠ "" then syncBoardC (loadFenC eng c f).2 else c

-- ### Tile-colour characterizations

theorem foldl_setTile_const (l : List String) (col : String) :
    ∀ (tc : String → String) (t : String),
      (l.foldl (fun a m => setTileColor a m col) tc) t
        = if t ∈ l ∧ t ∈ tileSquares then col else tc t := by
  induction l with
  | nil =>
    intro tc t
    simp
  | cons m rest ih =>
    intro tc t
    rw [List.foldl_cons, ih (setTileColor tc m col) t]
    by_cases h1 : t ∈ rest ∧ t ∈ tileSquares
    · rw [if_pos h1, if_pos ⟨List.mem_cons_of_mem _ h1.1, h1.2⟩]
    · rw [if_neg h1]
      unfold setTileColor
      by_cases hm : m ∈ tileSquares
      · rw [if_pos hm]
        by_cases ht : t = m
        · subst ht
          have hcond : t ∈ t :: rest ∧ t ∈ tileSquares := ⟨List.mem_cons_self _ _, hm⟩
          rw [if_pos rfl, if_pos hcond]
        · simp only [if_neg ht]
          have : ¬ (t ∈ m :: rest ∧ t ∈ tileSquares) := by
            rintro ⟨hmem, hts⟩
            rcases List.mem_cons.mp hmem with h2 | h2
            · exact ht h2
            · exact h1 ⟨h2, hts⟩
          rw [if_neg this]
      · rw [if_neg hm]
        have : ¬ (t ∈ m :: rest ∧ t ∈ tileSquares) := by
          rintro ⟨hmem, hts⟩
          rcases List.mem_cons.mp hmem with h2 | h2
          · exact hm (h2 ▸ hts)
          · exact h1 ⟨h2, hts⟩
        rw [if_neg this]

theorem foldl_setTile_frame (L : List (Nat × Nat)) :
    ∀ (tc : String → String) (t : String),
      (∀ e ∈ L, tileSquareId e ≠ t) →
      (L.foldl (fun a e => setTileColor a (tileSquareId e) (tileBase e)) tc) t = tc t := by
  induction L with
  | nil => intro tc t _; rfl
  | cons e rest ih =>
    intro tc t h
    rw [List.foldl_cons, ih _ t (fun e' he' => h e' (List.mem_cons_of_mem _ he'))]
    unfold setTileColor
    by_cases hm : tileSquareId e ∈ tileSquares
    · rw [if_pos hm]
      have hne : ¬ (t = tileSquareId e) := fun hc => h e (List.mem_cons_self _ _) hc.symm
      simp only [if_neg hne]
    · rw [if_neg hm]

theorem foldl_setTile_assign (L : List (Nat × Nat)) :
    ∀ (tc : String → String) (t : String),
      (∀ e ∈ L, tileSquareId e ∈ tileSquares) →
      (L.map tileSquareId).Nodup →
      (L.foldl (fun a e => setTileColor a (tileSquareId e) (tileBase e)) tc) t
        = match L.find? (fun e => tileSquareId e == t) with
          | some e => tileBase e
          | none => tc t := by
  induction L with
  | nil => intro tc t _ _; rfl
  | cons e rest ih =>
    intro tc t hmem hnd
    rw [List.map_cons, List.nodup_cons] at hnd
    rw [List.foldl_cons, List.find?]
    by_cases he : tileSquareId e = t
    · have hbeq : (tileSquareId e == t) = true := beq_iff_eq.mpr he
      rw [hbeq]
      subst he
      rw [foldl_setTile_frame rest _ _ (by
        intro e' he' hc
        exact hnd.1 (hc ▸ List.mem_map_of_mem tileSquareId he'))]
      unfold setTileColor
      rw [if_pos (hmem e (List.mem_cons_self _ _)), if_pos rfl]
    · have hbeq : (tileSquareId e == t) = false := by
        rw [beq_eq_false_iff_ne]
        exact he
      rw [hbeq]
      rw [ih _ t (fun e' he' => hmem e' (List.mem_cons_of_mem _ he')) hnd.2]
      have harg : setTileColor tc (tileSquareId e) (tileBase e) t = tc t := by
        unfold setTileColor
        by_cases hm : tileSquareId e ∈ tileSquares
        · rw [if_pos hm]
          have hne : ¬ (t = tileSquareId e) := fun hc => he hc.symm
          simp only [if_neg hne]
        · rw [if_neg hm]
      rcases hf : rest.find? (fun e' => tileSquareId e' == t) with _ | e'
      · exact harg
      · rfl

/-- The base colour repainted on tile `t` by `clearSelection`, when `t` is
one of the 64 tiles. -/
def baseColorOf (t : String) : Option String :=
  (tileEntries.find? (fun e => tileSquareId e == t)).map tileBase

theorem tileSquares_nodup : tileSquares.Nodup := by decide

/-- Pointwise effect of `clearSelection` on tile colours. -/
theorem clearSelectionC_tile (c : Client) (t : String) :
    (clearSelectionC c).tileColors t = (baseColorOf t).getD (c.tileColors t) := by
  unfold clearSelectionC baseColorOf
  simp only
  rw [foldl_setTile_assign tileEntries c.tileColors t
    (fun e he => List.mem_map_of_mem tileSquareId he) tileSquares_nodup]
  rcases hf : tileEntries.find? (fun e => tileSquareId e == t) with _ | e
  · rfl
  · rfl

/-- Behaviour of the `Idle` selection branch on an occupied square. -/
theorem selectSquareC_spec (eng : RulesEngine) (c : Client) (squareId : String)
    (hocc : eng.get c.pos squareId = true) :
    (selectSquareC eng c squareId).selectedSquare = some squareId ∧
    (selectSquareC eng c squareId).pos = c.pos ∧
    (selectSquareC eng c squareId).published = c.published ∧
    (∀ t, (selectSquareC eng c squareId).tileColors t
      = if t ∈ eng.movesOf c.pos squareId ∧ t ∈ tileSquares then cValid
        else if t = squareId ∧ squareId ∈ tileSquares then cSelected
        else c.tileColors t) := by
  unfold selectSquareC
  rw [if_pos hocc]
  refine ⟨rfl, rfl, rfl, ?_⟩
  intro t
  simp only
  rw [foldl_setTile_const (eng.movesOf c.pos squareId) cValid _ t]
  by_cases h1 : t ∈ eng.movesOf c.pos squareId ∧ t ∈ tileSquares
  · rw [if_pos h1, if_pos h1]
  · rw [if_neg h1, if_neg h1]
    unfold setTileColor
    by_cases hsq : squareId ∈ tileSquares
    · rw [if_pos hsq]
      by_cases ht : t = squareId
      · simp only [if_pos ht]
        rw [if_pos ⟨ht, hsq⟩]
      · simp only [if_neg ht]
        rw [if_neg (fun hc => ht hc.1)]
    · rw [if_neg hsq]
      rw [if_neg (fun hc => hsq hc.2)]

/-- C7: activating `squareId` while `s` is selected attempts the move with
promotion defaulted to queen; on success it publishes the new position
under the per-instance key, reconciles, clears all highlights, and returns
to Idle; on failure it clears highlights and returns to Idle, then
re-enters Selected on the activated square — with selection and
legal-destination highlights — exactly when that square has an occupant. -/
theorem handleSquareClick_selected (eng : RulesEngine) (c : Client) (s squareId : String)
    (hsel : c.selectedSquare = some s) :
    (∀ newPos, eng.tryMove c.pos s squareId "q" = some newPos →
      (handleSquareClick eng c squareId).pos = newPos ∧
      (handleSquareClick eng c squareId).published
        = c.published ++ [(stateKey c.instanceId, newPos)] ∧
      (handleSquareClick eng c squareId).syncCalls = c.syncCalls + 1 ∧
      (handleSquareClick eng c squareId).selectedSquare = none ∧
      (∀ t, (handleSquareClick eng c squareId).tileColors t
        = (baseColorOf t).getD (c.tileColors t))) ∧
    (eng.tryMove c.pos s squareId "q" = none → eng.get c.pos squareId = false →
      (handleSquareClick eng c squareId).selectedSquare = none ∧
      (handleSquareClick eng c squareId).pos = c.pos ∧
      (handleSquareClick eng c squareId).published = c.published ∧
      (∀ t, (handleSquareClick eng c squareId).tileColors t
        = (baseColorOf t).getD (c.tileColors t))) ∧
    (eng.tryMove c.pos s squareId "q" = none → eng.get c.pos squareId = true →
      (handleSquareClick eng c squareId).selectedSquare = some squareId ∧
      (handleSquareClick eng c squareId).pos = c.pos ∧
      (handleSquareClick eng c squareId).published = c.published ∧
      (∀ t, (handleSquareClick eng c squareId).tileColors t
        = if t ∈ eng.movesOf c.pos squareId ∧ t ∈ tileSquares then cValid
          else if t = squareId ∧ squareId ∈ tileSquares then cSelected
          else (baseColorOf t).getD (c.tileColors t))) := by
  refine ⟨?_, ?_, ?_⟩
  · intro newPos hmv
    have hH : handleSquareClick eng c squareId
        = clearSelectionC (syncBoardC
            { c with pos := newPos,
                     published := c.published ++ [(stateKey c.instanceId, newPos)] }) := by
      simp only [handleSquareClick, hsel, hmv]
    rw [hH]
    refine ⟨rfl, rfl, rfl, rfl, ?_⟩
    intro t
    exact clearSelectionC_tile _ t
  · intro hmv hocc
    have hH : handleSquareClick eng c squareId = clearSelectionC c := by
      simp only [handleSquareClick, hsel, hmv]
      have hp : (clearSelectionC c).pos = c.pos := rfl
      rw [hp, hocc]
      simp
    rw [hH]
    refine ⟨rfl, rfl, rfl, ?_⟩
    intro t
    exact clearSelectionC_tile c t
  · intro hmv hocc
    have hH : handleSquareClick eng c squareId
        = selectSquareC eng (clearSelectionC c) squareId := by
      simp only [handleSquareClick, hsel, hmv]
      have hp : (clearSelectionC c).pos = c.pos := rfl
      rw [hp, hocc]
      simp
    rw [hH]
    obtain ⟨h1, h2, h3, h4⟩ := selectSquareC_spec eng (clearSelectionC c) squareId hocc
    refine ⟨h1, h2, h3, ?_⟩
    intro t
    rw [h4 t]
    have hct := clearSelectionC_tile c t
    rw [hct]
    rfl

/-- A concrete rules engine that rejects every FEN and move (for witnesses
and counterexamples). -/
def engNone : RulesEngine :=
  ⟨fun _ => false, fun _ _ _ _ => none, fun _ _ => false, fun _ _ => []⟩

/-- A concrete fresh client (for witnesses and counterexamples). -/
def client0 : Client :=
  ⟨"", "", [], 0, none, fun _ => "", [], [], 0, []⟩

/-- Witness for C7: a selected client activating h8 with every move
rejected and h8 unoccupied. -/
theorem handleSquareClick_selected_witness :
    ({ client0 with selectedSquare := some "e2" } : Client).selectedSquare = some "e2" ∧
    ((∀ newPos, engNone.tryMove ({ client0 with selectedSquare := some "e2" } : Client).pos
        "e2" "h8" "q" = some newPos →
      (handleSquareClick engNone { client0 with selectedSquare := some "e2" } "h8").pos
        = newPos ∧
      (handleSquareClick engNone { client0 with selectedSquare := some "e2" } "h8").published
        = ({ client0 with selectedSquare := some "e2" } : Client).published
          ++ [(stateKey ({ client0 with selectedSquare := some "e2" } : Client).instanceId,
                newPos)] ∧
      (handleSquareClick engNone { client0 with selectedSquare := some "e2" } "h8").syncCalls
        = ({ client0 with selectedSquare := some "e2" } : Client).syncCalls + 1 ∧
      (handleSquareClick engNone { client0 with selectedSquare := some "e2" } "h8").selectedSquare
        = none ∧
      (∀ t, (handleSquareClick engNone { client0 with selectedSquare := some "e2" } "h8").tileColors t
        = (baseColorOf t).getD
            (({ client0 with selectedSquare := some "e2" } : Client).tileColors t))) ∧
    (engNone.tryMove ({ client0 with selectedSquare := some "e2" } : Client).pos "e2" "h8" "q"
        = none →
      engNone.get ({ client0 with selectedSquare := some "e2" } : Client).pos "h8" = false →
      (handleSquareClick engNone { client0 with selectedSquare := some "e2" } "h8").selectedSquare
        = none ∧
      (handleSquareClick engNone { client0 with selectedSquare := some "e2" } "h8").pos
        = ({ client0 with selectedSquare := some "e2" } : Client).pos ∧
      (handleSquareClick engNone { client0 with selectedSquare := some "e2" } "h8").published
        = ({ client0 with selectedSquare := some "e2" } : Client).published ∧
      (∀ t, (handleSquareClick engNone { client0 with selectedSquare := some "e2" } "h8").tileColors t
        = (baseColorOf t).getD
            (({ client0 with selectedSquare := some "e2" } : Client).tileColors t))) ∧
    (engNone.tryMove ({ client0 with selectedSquare := some "e2" } : Client).pos "e2" "h8" "q"
        = none →
      engNone.get ({ client0 with selectedSquare := some "e2" } : Client).pos "h8" = true →
      (handleSquareClick engNone { client0 with selectedSquare := some "e2" } "h8").selectedSquare
        = some "h8" ∧
      (handleSquareClick engNone { client0 with selectedSquare := some "e2" } "h8").pos
        = ({ client0 with selectedSquare := some "e2" } : Client).pos ∧
      (handleSquareClick engNone { client0 with selectedSquare := some "e2" } "h8").published
        = ({ client0 with selectedSquare := some "e2" } : Client).published ∧
      (∀ t, (handleSquareClick engNone { client0 with selectedSquare := some "e2" } "h8").tileColors t
        = if t ∈ engNone.movesOf ({ client0 with selectedSquare := some "e2" } : Client).pos "h8"
              ∧ t ∈ tileSquares then cValid
          else if t = "h8" ∧ "h8" ∈ tileSquares then cSelected
          else (baseColorOf t).getD
            (({ client0 with selectedSquare := some "e2" } : Client).tileColors t)))) :=
  ⟨rfl, handleSquareClick_selected engNone { client0 with selectedSquare := some "e2" }
    "e2" "h8" rfl⟩

/-- Counterexample to C5: on the one-time initial read there is no
`"reset"` special case — the literal `"reset"` is handed to the FEN
loader (which rejects it), and the position is not reset to the
standard starting position. -/
theorem handleInitialState_reset_cex :
    (handleInitialState engNone client0 (SharedRecord.record (some "reset"))).loaderCalls
      = ["reset"] ∧
    (handleInitialState engNone client0 (SharedRecord.record (some "reset"))).pos
      ≠ startFen := by
  decide

/-- C5 (corrected): the `"reset"` sentinel is special-cased only in the
`space-state-changed` handler — there it resets to the standard starting
position, reconciles and clears the selection without calling the FEN
loader — while the one-time initial read has no such case: it hands any
truthy `fen` field, `"reset"` included, to the FEN loader, so there the
position changes only if the engine accepts the literal string as a FEN. -/
theorem reset_sentinel_paths (eng : RulesEngine) (c : Client) :
    ((handleSpaceState eng c (SharedRecord.record (some "reset"))).pos = startFen ∧
     (handleSpaceState eng c (SharedRecord.record (some "reset"))).loaderCalls
        = c.loaderCalls ∧
     (handleSpaceState eng c (SharedRecord.record (some "reset"))).syncCalls
        = c.syncCalls + 1 ∧
     (handleSpaceState eng c (SharedRecord.record (some "reset"))).selectedSquare
        = none) ∧
    ((handleInitialState eng c (SharedRecord.record (some "reset"))).loaderCalls
        = c.loaderCalls ++ ["reset"] ∧
     (handleInitialState eng c (SharedRecord.record (some "reset"))).pos
        = if eng.validFen "reset" then "reset" else c.pos) := by
  constructor
  · refine ⟨?_, ?_, ?_, ?_⟩ <;>
      simp [handleSpaceState, clearSelectionC, syncBoardC, resetC]
  · constructor
    · by_cases h : eng.validFen "reset" <;>
        simp [handleInitialState, loadFenC, syncBoardC, h]
    · by_cases h : eng.validFen "reset" <;>
        simp [handleInitialState, loadFenC, syncBoardC, h]

/-- Counterexample to C6: the `space-state-changed` handler calls
`syncBoard()` even when `loadFen` has just rejected the FEN — the
re-render is not suppressed for an invalid FEN. -/
theorem handleSpaceState_invalid_sync_cex :
    engNone.validFen "bogus" = false ∧
    (loadFenC engNone client0 "bogus").1 = false ∧
    (handleSpaceState engNone client0 (SharedRecord.record (some "bogus"))).syncCalls
      = 1 := by
  decide

/-- C6 (corrected): loading an invalid FEN reports failure to the caller,
leaves the engine's position unchanged and logs a diagnostic, but the
remote-change handler does not suppress the re-render: it invokes
`syncBoard()` for the update even though `loadFen` returned false. -/
theorem loadFen_invalid (eng : RulesEngine) (c : Client) (f : String)
    (hf : eng.validFen f = false) (hr : f ≠ "reset") (he : f ≠ "") :
    (loadFenC eng c f).1 = false ∧
    (loadFenC eng c f).2.pos = c.pos ∧
    (loadFenC eng c f).2.log = c.log ++ ["Failed to load FEN: " ++ f] ∧
    (handleSpaceState eng c (SharedRecord.record (some f))).pos = c.pos ∧
    (handleSpaceState eng c (SharedRecord.record (some f))).syncCalls
      = c.syncCalls + 1 := by
  refine ⟨?_, ?_, ?_, ?_, ?_⟩ <;>
    simp [loadFenC, handleSpaceState, syncBoardC, hf, hr, he]

/-- Witness for C6 at the concrete rejected FEN string "xx". -/
theorem loadFen_invalid_witness :
    engNone.validFen "xx" = false ∧ "xx" ≠ "reset" ∧ "xx" ≠ "" ∧
    ((loadFenC engNone client0 "xx").1 = false ∧
     (loadFenC engNone client0 "xx").2.pos = client0.pos ∧
     (loadFenC engNone client0 "xx").2.log
        = client0.log ++ ["Failed to load FEN: " ++ "xx"] ∧
     (handleSpaceState engNone client0 (SharedRecord.record (some "xx"))).pos
        = client0.pos ∧
     (handleSpaceState engNone client0 (SharedRecord.record (some "xx"))).syncCalls
        = client0.syncCalls + 1) :=
  ⟨rfl, by decide, by decide,
    loadFen_invalid engNone client0 "xx" rfl (by decide) (by decide)⟩

/-- C10: a remote record whose `fen` field is not the reset sentinel
leaves the selection state and every tile colour untouched (reloading the
position and reconciling when the field is truthy), while the
reset-sentinel branch clears the selection and restores every tile's base
colour. -/
theorem handleSpaceState_frame (eng : RulesEngine) (c : Client) (f : String)
    (hr : f ≠ "reset") :
    ((handleSpaceState eng c (SharedRecord.record (some f))).selectedSquare
        = c.selectedSquare ∧
     (∀ t, (handleSpaceState eng c (SharedRecord.record (some f))).tileColors t
        = c.tileColors t) ∧
     (f ≠ "" →
       (handleSpaceState eng c (SharedRecord.record (some f))).loaderCalls
          = c.loaderCalls ++ [f] ∧
       (handleSpaceState eng c (SharedRecord.record (some f))).syncCalls
          = c.syncCalls + 1)) ∧
    ((handleSpaceState eng c (SharedRecord.record (some "reset"))).selectedSquare
        = none ∧
     (∀ t, (handleSpaceState eng c (SharedRecord.record (some "reset"))).tileColors t
        = (baseColorOf t).getD (c.tileColors t))) := by
  constructor
  · by_cases hemp : f = ""
    · subst hemp
      refine ⟨?_, fun t => ?_, fun hne => absurd rfl hne⟩ <;>
        simp [handleSpaceState]
    · refine ⟨?_, fun t => ?_, fun _ => ⟨?_, ?_⟩⟩ <;>
        by_cases hv : eng.validFen f <;>
          simp [handleSpaceState, loadFenC, syncBoardC, hr, hemp, hv]
  · refine ⟨?_, fun t => ?_⟩
    · simp [handleSpaceState, clearSelectionC, syncBoardC, resetC]
    · have h1 : (handleSpaceState eng c (SharedRecord.record (some "reset")))
          = clearSelectionC (syncBoardC (resetC c)) := by
        simp [handleSpaceState]
      rw [h1, clearSelectionC_tile]
      rfl

/-- Witness for C10 at the concrete non-sentinel field "xy". -/
theorem handleSpaceState_frame_witness :
    "xy" ≠ "reset" ∧
    (((handleSpaceState engNone client0 (SharedRecord.record (some "xy"))).selectedSquare
        = client0.selectedSquare ∧
     (∀ t, (handleSpaceState engNone client0 (SharedRecord.record (some "xy"))).tileColors t
        = client0.tileColors t) ∧
     ("xy" ≠ "" →
       (handleSpaceState engNone client0 (SharedRecord.record (some "xy"))).loaderCalls
          = client0.loaderCalls ++ ["xy"] ∧
       (handleSpaceState engNone client0 (SharedRecord.record (some "xy"))).syncCalls
          = client0.syncCalls + 1)) ∧
    ((handleSpaceState engNone client0 (SharedRecord.record (some "reset"))).selectedSquare
        = none ∧
     (∀ t, (handleSpaceState engNone client0 (SharedRecord.record (some "reset"))).tileColors t
        = (baseColorOf t).getD (client0.tileColors t)))) :=
  ⟨by decide, handleSpaceState_frame engNone client0 "xy" (by decide)⟩
